import Mathlib

/-!
# prometheus-exporter-merger: label injection and response assembly

A shallow embedding of `main.go`.

* Text is a `List Char`: the code points of a body.  The regular expression
  `metricRegex` is embedded as the backtracking matcher it denotes (Go's
  leftmost-first semantics): every quantifier tries its greedy choice first
  and falls back to the rest of the pattern.
* `transformer` is the replace-all reading of
  `replace.RegexpStringSubmatchFunc(metricRegex, mergeLabels(labels))` on the
  whole text of one body: the matches of `FindAllSubmatchIndex`, left to
  right and non-overlapping, each replaced by what `mergeLabels` returns for
  its submatches, the text between them copied.  The program hands the text
  to the regular expression buffer by buffer and bounds the text it keeps for
  a match that may still come; these bounds are not part of `transformer`.
* The fetch fan-out and the copy loop of `handler` are embedded with their
  environment made explicit: the outcome of each request, the order in which
  the fetch goroutines deliver, and the outcome of each copy are inputs; so is
  the order in which each `range` over a Go map yields its entries.
-/

namespace Merger

/-! ## Character classes of `metricRegex` -/

/-- Class `[a-zA-Z_:]`, the first character of `(?<name>...)`. -/
def isNameStart (c : Char) : Bool :=
  ('a' ≤ c && c ≤ 'z') || ('A' ≤ c && c ≤ 'Z') || c == '_' || c == ':'

/-- Class `[a-zA-Z0-9_:]`, the further characters of `(?<name>...)`. -/
def isNameChar (c : Char) : Bool :=
  ('a' ≤ c && c ≤ 'z') || ('A' ≤ c && c ≤ 'Z') || ('0' ≤ c && c ≤ '9') || c == '_' || c == ':'

/-- Class `\s` of Go's regexp syntax: `[\t\n\f\r ]`. -/
def isSpace (c : Char) : Bool :=
  c == '\t' || c == '\n' || c == '\x0c' || c == '\r' || c == ' '

/-- Class `[0-9eE\.\+\-]` of `(?<sample>...)`. -/
def isSampleChar (c : Char) : Bool :=
  ('0' ≤ c && c ≤ '9') || c == 'e' || c == 'E' || c == '.' || c == '+' || c == '-'

/-! ## The matcher for `metricRegex`

`\n(?<name>[a-zA-Z_:][a-zA-Z0-9_:]*)(?<labels>\{[^\}].*\})?\s(?<sample>[0-9eE\.\+\-]+)`
-/

/-- The submatches of one match of `metricRegex`; `sep` is the character taken
by `\s`, and `labels` is empty when the optional group did not take part. -/
structure Submatch where
  name : List Char
  labels : List Char
  sep : Char
  sample : List Char
deriving DecidableEq, Repr

/-- The whole matched text (submatch 0). -/
def Submatch.text (m : Submatch) : List Char :=
  '\n' :: (m.name ++ m.labels ++ m.sep :: m.sample)

/-- Pattern tail `\s(?<sample>[0-9eE\.\+\-]+)`: one white-space character and
the longest non-empty run of sample characters.  Gives `(sep, sample)`. -/
def matchSample : List Char → Option (Char × List Char)
  | sp :: c :: t =>
    if isSpace sp && isSampleChar c then some (sp, c :: t.takeWhile isSampleChar)
    else none
  | _ => none

/-- Pattern `.*\}` followed by the tail: `.` takes any character but a
newline and `.*` is greedy, so taking one more character is tried before the
closing brace.  Gives `(text of .*, sep, sample)`. -/
def matchDotStar : List Char → Option (List Char × Char × List Char)
  | [] => none
  | c :: t =>
    match (if c = '\n' then none else matchDotStar t) with
    | some (d, r) => some (c :: d, r)
    | none =>
      if c = '}' then (matchSample t).map (fun r => ([], r)) else none

/-- Pattern `(?<labels>\{[^\}].*\})` followed by the tail; `[^\}]` takes any
character but `}`, a newline included.  Gives `(labels, sep, sample)`. -/
def matchLabels : List Char → Option (List Char × Char × List Char)
  | o :: c :: t =>
    if o = '{' ∧ c ≠ '}' then
      (matchDotStar t).map (fun (d, r) => ('{' :: c :: (d ++ ['}']), r))
    else none
  | _ => none

/-- Pattern `(?<labels>...)?` followed by the tail: the group is tried first,
then the pattern without it (the group then captures nothing). -/
def matchAfterName (s : List Char) : Option (List Char × Char × List Char) :=
  match matchLabels s with
  | some r => some r
  | none => (matchSample s).map (fun r => ([], r))

/-- Pattern `[a-zA-Z0-9_:]*` followed by the rest of the pattern, greedy.
Gives `(the further name characters, labels, sep, sample)`. -/
def matchNameRest : List Char → Option (List Char × List Char × Char × List Char)
  | [] => none
  | c :: t =>
    match (if isNameChar c then matchNameRest t else none) with
    | some (n, r) => some (c :: n, r)
    | none => (matchAfterName (c :: t)).map (fun r => ([], r))

/-- A match of `metricRegex` that starts at the head of the text. -/
def matchAt : List Char → Option Submatch
  | nl :: c :: t =>
    if nl = '\n' ∧ isNameStart c = true then
      (matchNameRest t).map (fun (n, l, sp, v) => ⟨c :: n, l, sp, v⟩)
    else none
  | _ => none

/-! ## `mergeLabels` and `transformer` -/

/-- Model of `strings.TrimSuffix(s, "}")`. -/
def trimSuffixBrace (s : List Char) : List Char :=
  if s.getLast? = some '}' then s.dropLast else s

/-- Model of `strings.Join(kv, ",")`. -/
def joinComma : List (List Char) → List Char
  | [] => []
  | [f] => f
  | f :: g :: kv => f ++ ',' :: joinComma (g :: kv)

/-- The replacement function `mergeLabels(kv)`; `s` is the submatch slice
`[whole, name, labels, sample]`. -/
def mergeLabels (kv : List (List Char)) (s : List (List Char)) : List Char :=
  let name := s.getD 1 []
  let labels := s.getD 2 []
  let sample := s.getD 3 []
  if labels = [] ∧ kv.length = 0 then
    ['\n'] ++ name ++ [' '] ++ sample
  else
    let labels :=
      if labels = [] then ['{'] ++ joinComma kv ++ ['}']
      else trimSuffixBrace labels ++ [','] ++ joinComma kv ++ ['}']
    ['\n'] ++ name ++ labels ++ [' '] ++ sample

/-- The submatch slice handed to the replacement function. -/
def Submatch.slice (m : Submatch) : List (List Char) :=
  [m.text, m.name, m.labels, m.sample]

/-- A piece of the scanned text: a character outside every match, or a match. -/
inductive Seg where
  | lit (c : Char)
  | hit (m : Submatch)
deriving DecidableEq, Repr

/-- The source text of a piece. -/
def Seg.src : Seg → List Char
  | .lit c => [c]
  | .hit m => m.text

/-- What the transformer writes for a piece. -/
def Seg.out (kv : List (List Char)) : Seg → List Char
  | .lit c => [c]
  | .hit m => mergeLabels kv m.slice

/-- The scan of `FindAllSubmatchIndex`: `skip` counts the characters of the
current match still to be passed over; with none left a match is tried at the
head, and the search goes on behind it, or one character on when there is none. -/
def scan : Nat → List Char → List Seg
  | _, [] => []
  | k + 1, _ :: t => scan k t
  | 0, c :: t =>
    match matchAt (c :: t) with
    | some m => Seg.hit m :: scan (m.text.length - 1) t
    | none => Seg.lit c :: scan 0 t

/-- All matches of `metricRegex` in a text, with the text between them. -/
def segments (s : List Char) : List Seg := scan 0 s

/-- The text transformation `transformer(labels)` applied to the whole text of a
body: every match of `metricRegex`, found from left to right, is replaced by
what `mergeLabels(labels)` returns for it.  The program hands the text to the
regular expression in buffers (the reader of `golang.org/x/text/transform`
fills 4096 bytes at a time, and the replacing transformer keeps at most 2048
bytes of unmatched text for a match that may still come); this function is the
transformation without these bounds. -/
def transformer (kv : List (List Char)) (s : List Char) : List Char :=
  (segments s).flatMap (Seg.out kv)

/-! ## Lines -/

/-- Model of `strings.Join(lines, "\n")`. -/
def joinLines : List (List Char) → List Char
  | [] => []
  | [l] => l
  | l :: l' :: ls => l ++ '\n' :: joinLines (l' :: ls)

/-- Model of `bytes.Split(b, []byte("\n"))`. -/
def splitLines : List Char → List (List Char)
  | [] => [[]]
  | c :: t =>
    if c = '\n' then [] :: splitLines t
    else
      match splitLines t with
      | [] => [[c]]
      | l :: ls => (c :: l) :: ls

/-- The test helper `countLines`: the number of non-empty segments between
newlines. -/
def countLines (b : List Char) : Nat :=
  (splitLines b).countP (fun line => line.length != 0)

/-- A line at whose end a match of `metricRegex` is still open, so that it
would go on into the next line: a bare metric name (the newline can serve as
`\s`), a metric name followed by `{` alone (the newline can serve as `[^\}]`),
or a metric name followed by text from `{` to a final `}`. -/
def openLine : List Char → Bool
  | [] => false
  | c :: t =>
    isNameStart c &&
      (match t.dropWhile isNameChar with
       | [] => true
       | o :: r => o == '{' && (r.isEmpty || r.getLast? == some '}'))

/-- What becomes of one line (without its newline) that is preceded by a
newline: a match at its start is replaced by what `mergeLabels` returns for
it, less the newline, and the rest of the line is kept. -/
def rewriteLine (kv : List (List Char)) (l : List Char) : List Char :=
  match matchAt ('\n' :: l) with
  | some m => (mergeLabels kv m.slice).tail ++ l.drop (m.text.length - 1)
  | none => l

/-! ## Configuration and the labels to inject -/

/-- A Go `map[string]string`, given by a listing of its entries.  A `range` over
the map yields the entries in an order that the runtime chooses anew for every
`range` (see `Ranges`). -/
abbrev LabelMap := List (List Char × List Char)

/-- The configuration of one upstream exporter. -/
structure Exporter where
  URI : List Char
  Labels : LabelMap
deriving DecidableEq, Repr

/-- The configuration of one listener; `Exporters` is the map from exporter name
to exporter, as the sequence of its entries. -/
structure ListenerConfig where
  Address : List Char
  Path : List Char
  Exporters : List (List Char × Exporter)
  CommonLabels : LabelMap
deriving Repr

/-- Function `mapToSliceLabels`: each pair formatted by
`fmt.Sprintf("%s=\"%s\"", k, v)`, in the order of the iteration. -/
def mapToSliceLabels (m : LabelMap) : List (List Char) :=
  m.map (fun kv => kv.1 ++ ['=', '"'] ++ kv.2 ++ ['"'])

/-- What the `range` loops inside `mapToSliceLabels` yield during one run of the
set-up loop of `handler`.  The loop calls `mapToSliceLabels(e.Labels)` and
`mapToSliceLabels(cfg.CommonLabels)` once for every exporter, and every call
ranges over its map in an order of its own: `labels name` is the sequence of
pairs yielded for the labels of the exporter `name`, and `common name` the
sequence yielded for the common labels in the iteration of that exporter. -/
structure Ranges where
  labels : List Char → LabelMap
  common : List Char → LabelMap

/-- The ranges that yield every map in the order of its listing. -/
def Ranges.listed (cfg : ListenerConfig) : Ranges :=
  { labels := fun name => ((cfg.Exporters.lookup name).map (fun e => e.Labels)).getD [],
    common := fun _ => cfg.CommonLabels }

/-- The set-up loop of `handler`: for every exporter the fragment list
`append(mapToSliceLabels(e.Labels), mapToSliceLabels(cfg.CommonLabels)...)`
that its transformer is built with, each map in the order its `range` yields. -/
def transformers (cfg : ListenerConfig) (r : Ranges) : List (List Char × List (List Char)) :=
  cfg.Exporters.map
    (fun ne => (ne.1, mapToSliceLabels (r.labels ne.1) ++ mapToSliceLabels (r.common ne.1)))

/-! ## The request handler -/

/-- How the copy of one body to the client ends: `io.Copy` returns no error, or
it returns one after `written` characters of the transformed text went out. -/
inductive CopyResult where
  | done
  | failed (written : Nat)
deriving DecidableEq, Repr

/-- A response body (`io.ReadCloser`): `id` tells the streams apart, `data` is
the text it yields, `copy` is how copying it to the client ends. -/
structure ReadCloser where
  id : Nat
  data : List Char
  copy : CopyResult
deriving DecidableEq, Repr

/-- The struct `Payload` of `handler`. -/
structure Payload where
  Name : List Char
  Body : ReadCloser
deriving DecidableEq, Repr

/-- The outcome of one fetch goroutine: `http.NewRequestWithContext` or
`httpClient().Do` returned an error (logged, nothing is sent), or `Do` returned a
response, whose body is sent on the channel.  The status code is not looked at. -/
inductive FetchResult where
  | failed
  | response (body : ReadCloser)
deriving DecidableEq, Repr

/-- The fetch fan-out: what the channel `payload` carries until it is closed.
`order` lists the exporters in the order in which their goroutines finish; the
channel has room for all of them, so no send waits. -/
def fetchPayloads (fetch : List Char → Exporter → FetchResult)
    (order : List (List Char × Exporter)) : List Payload :=
  order.filterMap (fun ne =>
    match fetch ne.1 ne.2 with
    | .failed => none
    | .response body => some ⟨ne.1, body⟩)

/-- What the handler has done so far: the text written to the response, and
the bodies on which `Close` was called, in the order of the calls. -/
structure Client where
  written : List Char
  closed : List Nat
deriving DecidableEq, Repr

/-- Function `copyBody`: copies the transformed body to the client and closes
the body (`defer body.Close()`); the flag tells whether an error is returned. -/
def copyBody (w : Client) (body : ReadCloser) (kv : List (List Char)) : Client × Bool :=
  match body.copy with
  | .done =>
    (⟨w.written ++ transformer kv body.data, w.closed ++ [body.id]⟩, false)
  | .failed k =>
    (⟨w.written ++ (transformer kv body.data).take k, w.closed ++ [body.id]⟩, true)

/-- The loop `for p := range payload` of `handler`: every payload is copied
with the transformer of its exporter; an error of `copyBody` ends the handler. -/
def serveLoop (ts : List (List Char × List (List Char))) : Client → List Payload → Client
  | w, [] => w
  | w, p :: ps =>
    match copyBody w p.Body ((ts.lookup p.Name).getD []) with
    | (w', true) => w'
    | (w', false) => serveLoop ts w' ps

/-- One request served by `handler(cfg)`, the transformers having been set up
with the ranges `r`. -/
def handler (cfg : ListenerConfig) (r : Ranges)
    (fetch : List Char → Exporter → FetchResult)
    (order : List (List Char × Exporter)) : Client :=
  serveLoop (transformers cfg r) ⟨[], []⟩ (fetchPayloads fetch order)

/-! ## Concrete texts used in the examples -/

/-- The fragment list of `Test_transformer`. -/
def fooBar : List (List Char) := ["foo=\"bar\"".toList]

/-- The fragment list of the injection example. -/
def jobEnv : List (List Char) := ["job=\"A\"".toList, "env=\"prod\"".toList]

/-- The first line of `origin` in `Test_transformer`. -/
def originHead : List Char :=
  "# HELP go_gc_duration_seconds A summary of the pause duration of garbage collection cycles.".toList

/-- The further lines of `origin` in `Test_transformer`. -/
def originTail : List (List Char) :=
  ["# TYPE go_gc_duration_seconds summary".toList,
   "go_gc_duration_seconds\x7bquantile=\"0\"\x7d 5.871e-06".toList,
   "go_gc_duration_seconds\x7bquantile=\"0.25\"\x7d 8.356e-06".toList,
   "go_gc_duration_seconds\x7bquantile=\"0.25\"\x7d 8.356e-06".toList,
   "go_gc_duration_seconds\x7bquantile=\"0.5\"\x7d 1.2864e-05".toList,
   "go_gc_duration_seconds\x7bquantile=\"0.75\"\x7d 1.8997e-05".toList,
   "go_gc_duration_seconds\x7bquantile=\"1\"\x7d 5.5938e-05".toList,
   "go_gc_duration_seconds_sum 0.464658525".toList,
   "go_gc_duration_seconds_count 30719".toList]

/-- The lines of `want` in `Test_transformer`. -/
def wantLines : List (List Char) :=
  ["# HELP go_gc_duration_seconds A summary of the pause duration of garbage collection cycles.".toList,
   "# TYPE go_gc_duration_seconds summary".toList,
   "go_gc_duration_seconds\x7bquantile=\"0\",foo=\"bar\"\x7d 5.871e-06".toList,
   "go_gc_duration_seconds\x7bquantile=\"0.25\",foo=\"bar\"\x7d 8.356e-06".toList,
   "go_gc_duration_seconds\x7bquantile=\"0.25\",foo=\"bar\"\x7d 8.356e-06".toList,
   "go_gc_duration_seconds\x7bquantile=\"0.5\",foo=\"bar\"\x7d 1.2864e-05".toList,
   "go_gc_duration_seconds\x7bquantile=\"0.75\",foo=\"bar\"\x7d 1.8997e-05".toList,
   "go_gc_duration_seconds\x7bquantile=\"1\",foo=\"bar\"\x7d 5.5938e-05".toList,
   "go_gc_duration_seconds_sum\x7bfoo=\"bar\"\x7d 0.464658525".toList,
   "go_gc_duration_seconds_count\x7bfoo=\"bar\"\x7d 30719".toList]

/-- A listener with the exporters `a` and `b`, without labels. -/
def twoExporters : ListenerConfig :=
  { Address := ":8080".toList, Path := "/metrics".toList,
    Exporters := [("a".toList, ⟨"http://a/metrics".toList, []⟩),
                  ("b".toList, ⟨"http://b/metrics".toList, []⟩)],
    CommonLabels := [] }

/-- A listener with the exporter `a`, labelled `foo="bar"`. -/
def oneExporter : ListenerConfig :=
  { Address := ":8080".toList, Path := "/metrics".toList,
    Exporters := [("a".toList, ⟨"http://a/metrics".toList, [("foo".toList, "bar".toList)]⟩)],
    CommonLabels := [] }

/-- Both exporters answer, each with a body that has no final newline. -/
def fetchUnterminated (name : List Char) (_ : Exporter) : FetchResult :=
  if name = "a".toList then .response ⟨1, "a 1".toList, .done⟩
  else .response ⟨2, "b 2".toList, .done⟩

/-- The exporter answers with a bare metric name on one line and a number on
the next. -/
def fetchOpenLine (_ : List Char) (_ : Exporter) : FetchResult :=
  .response ⟨1, "# c\nup\n1\n".toList, .done⟩

/-- A listener with the exporter `a`, whose label `foo` has a newline as value. -/
def newlineLabel : ListenerConfig :=
  { Address := ":8080".toList, Path := "/metrics".toList,
    Exporters := [("a".toList, ⟨"http://a/metrics".toList, [("foo".toList, "\n".toList)]⟩)],
    CommonLabels := [] }

/-- The exporter answers with a comment line and a sample line. -/
def fetchPlain (_ : List Char) (_ : Exporter) : FetchResult :=
  .response ⟨1, "# c\nup 1\n".toList, .done⟩

/-- Both exporters answer with the text of `Test_transformer`, newline at the end. -/
def fetchTwice (name : List Char) (_ : Exporter) : FetchResult :=
  if name = "a".toList then
    .response ⟨1, joinLines (originHead :: originTail) ++ ['\n'], .done⟩
  else .response ⟨2, joinLines (originHead :: originTail) ++ ['\n'], .done⟩

/-- A listener with the exporters `a`, `b` and `c`; `a` has the label
`job="A"`, and `env="prod"` is common to all. -/
def threeExporters : ListenerConfig :=
  { Address := ":8080".toList, Path := "/metrics".toList,
    Exporters := [("a".toList, ⟨"http://a/metrics".toList, [("job".toList, "A".toList)]⟩),
                  ("b".toList, ⟨"http://b/metrics".toList, []⟩),
                  ("c".toList, ⟨"http://c/metrics".toList, []⟩)],
    CommonLabels := [("env".toList, "prod".toList)] }

/-- Exporters `a` and `c` answer; the request to `b` fails. -/
def fetchOneDown (name : List Char) (_ : Exporter) : FetchResult :=
  if name = "a".toList then .response ⟨1, "# a\nup 1\n".toList, .done⟩
  else if name = "c".toList then .response ⟨3, "# c\nup 0\n".toList, .done⟩
  else .failed

/-- The goroutine of `c` finishes first, then that of `a`, then that of `b`. -/
def orderCAB : List (List Char × Exporter) :=
  [("c".toList, ⟨"http://c/metrics".toList, []⟩),
   ("a".toList, ⟨"http://a/metrics".toList, [("job".toList, "A".toList)]⟩),
   ("b".toList, ⟨"http://b/metrics".toList, []⟩)]

/-- Both exporters answer; copying the body of `a` to the client fails at once. -/
def fetchCopyFails (name : List Char) (_ : Exporter) : FetchResult :=
  if name = "a".toList then .response ⟨1, "# a\nup 1\n".toList, .failed 0⟩
  else .response ⟨2, "# b\nup 1\n".toList, .done⟩

/-- A listener with two exporters and two common labels. -/
def twoCommon : ListenerConfig :=
  { Address := ":8080".toList, Path := "/metrics".toList,
    Exporters := [("a".toList, ⟨"http://a/metrics".toList,
                    [("job".toList, "A".toList), ("team".toList, "x".toList)]⟩),
                  ("b".toList, ⟨"http://b/metrics".toList, []⟩)],
    CommonLabels := [("env".toList, "prod".toList), ("dc".toList, "eu".toList)] }

/-- Ranges that yield the labels of `a` in the order `team`, `job`, and the
common labels as `env`, `dc` for `a` and as `dc`, `env` for `b`. -/
def rangesSwapped : Ranges :=
  { labels := fun name =>
      if name = "a".toList then [("team".toList, "x".toList), ("job".toList, "A".toList)]
      else [],
    common := fun name =>
      if name = "a".toList then [("env".toList, "prod".toList), ("dc".toList, "eu".toList)]
      else [("dc".toList, "eu".toList), ("env".toList, "prod".toList)] }

/-! # Theorems -/

/-! ## Facts about the character classes -/

theorem isSampleChar_nl : isSampleChar '\n' = false := by decide

theorem isNameChar_nl : isNameChar '\n' = false := by decide

theorem isNameStart_nl : isNameStart '\n' = false := by decide

theorem not_nl_of_isSampleChar {c : Char} (h : isSampleChar c = true) : c ≠ '\n' := by
  rintro rfl; exact absurd h (by decide)

theorem not_nl_of_isNameChar {c : Char} (h : isNameChar c = true) : c ≠ '\n' := by
  rintro rfl; exact absurd h (by decide)

theorem not_brace_of_isNameChar {c : Char} (h : isNameChar c = true) : c ≠ '{' := by
  rintro rfl; exact absurd h (by decide)

theorem not_space_of_isNameChar {c : Char} (h : isNameChar c = true) : isSpace c = false := by
  cases hs : isSpace c
  · rfl
  · simp only [isSpace, Bool.or_eq_true, beq_iff_eq] at hs
    rcases hs with (((rfl | rfl) | rfl) | rfl) | rfl <;> exact absurd h (by decide)

theorem isNameChar_of_isNameStart {c : Char} (h : isNameStart c = true) :
    isNameChar c = true := by
  simp only [isNameStart, isNameChar, Bool.or_eq_true, Bool.and_eq_true] at *
  tauto

/-! ## Shape of a match -/

theorem matchSample_some {s : List Char} {sp : Char} {v : List Char}
    (h : matchSample s = some (sp, v)) :
    isSpace sp = true ∧ v ≠ [] ∧ (∀ c ∈ v, isSampleChar c = true) ∧
      ∃ r, s = sp :: v ++ r := by
  match s, h with
  | sp0 :: c :: t, h =>
    simp only [matchSample] at h
    split at h
    · rename_i hc
      simp only [Bool.and_eq_true] at hc
      simp only [Option.some.injEq, Prod.mk.injEq] at h
      obtain ⟨rfl, rfl⟩ := h
      refine ⟨hc.1, by simp, ?_, t.dropWhile isSampleChar, ?_⟩
      · intro x hx
        rcases List.mem_cons.1 hx with rfl | hx
        · exact hc.2
        · exact List.mem_takeWhile_imp hx
      · simp [List.takeWhile_append_dropWhile]
    · exact absurd h (by simp)

theorem matchDotStar_some :
    ∀ {s : List Char} {d : List Char} {sp : Char} {v : List Char},
      matchDotStar s = some (d, sp, v) →
      (∀ c ∈ d, c ≠ '\n') ∧ matchSample (s.drop (d.length + 1)) = some (sp, v) ∧
        ∃ r, s = d ++ '}' :: sp :: v ++ r
  | [], d, sp, v, h => by simp [matchDotStar] at h
  | c :: t, d, sp, v, h => by
    rw [matchDotStar] at h
    split at h
    · rename_i d0 r0 hrec
      simp only [Option.some.injEq, Prod.mk.injEq] at h
      obtain ⟨rfl, rfl⟩ := h
      by_cases hc : c = '\n'
      · simp [hc] at hrec
      · simp only [hc, if_false] at hrec
        obtain ⟨h1, h2, r, h3⟩ := matchDotStar_some hrec
        refine ⟨?_, by simpa using h2, r, by rw [h3]; simp⟩
        intro x hx
        rcases List.mem_cons.1 hx with rfl | hx
        · exact hc
        · exact h1 x hx
    · split at h
      · rename_i hb
        subst hb
        cases hm : matchSample t with
        | none => simp [hm] at h
        | some r =>
          obtain ⟨sp0, v0⟩ := r
          simp only [hm, Option.map_some', Option.some.injEq, Prod.mk.injEq] at h
          obtain ⟨rfl, rfl, rfl⟩ := h
          obtain ⟨_, _, _, r, hr⟩ := matchSample_some hm
          exact ⟨by simp, by simpa using hm, r, by rw [hr]; simp⟩
      · exact absurd h (by simp)

theorem matchLabels_some {s l : List Char} {sp : Char} {v : List Char}
    (h : matchLabels s = some (l, sp, v)) :
    ∃ c d, l = '{' :: c :: (d ++ ['}']) ∧ c ≠ '}' ∧ (∀ x ∈ d, x ≠ '\n') ∧
      ∃ r, s = l ++ sp :: v ++ r := by
  match s, h with
  | o :: c :: t, h =>
    simp only [matchLabels] at h
    split at h
    · rename_i hc
      obtain ⟨rfl, hc⟩ := hc
      cases hm : matchDotStar t with
      | none => simp [hm] at h
      | some r =>
        obtain ⟨d0, sp0, v0⟩ := r
        simp only [hm, Option.map_some', Option.some.injEq, Prod.mk.injEq] at h
        obtain ⟨rfl, rfl, rfl⟩ := h
        obtain ⟨h1, _, r, hr⟩ := matchDotStar_some hm
        exact ⟨c, d0, rfl, hc, h1, r, by rw [hr]; simp⟩
    · exact absurd h (by simp)

theorem matchAfterName_some {s l : List Char} {sp : Char} {v : List Char}
    (h : matchAfterName s = some (l, sp, v)) :
    (l = [] ∨ ∃ c d, l = '{' :: c :: (d ++ ['}']) ∧ c ≠ '}' ∧ (∀ x ∈ d, x ≠ '\n')) ∧
      isSpace sp = true ∧ v ≠ [] ∧ (∀ c ∈ v, isSampleChar c = true) ∧
      ∃ r, s = l ++ sp :: v ++ r := by
  unfold matchAfterName at h
  split at h
  · rename_i r hl
    simp only [Option.some.injEq] at h
    subst h
    obtain ⟨c, d, h1, h2, h3, r, hr⟩ := matchLabels_some hl
    have hs : matchSample (s.drop l.length) = some (sp, v) := by
      match s, hl with
      | o :: c0 :: t, hl =>
        simp only [matchLabels] at hl
        split at hl
        · cases hm : matchDotStar t with
          | none => simp [hm] at hl
          | some r1 =>
            obtain ⟨d0, sp0, v0⟩ := r1
            simp only [hm, Option.map_some', Option.some.injEq, Prod.mk.injEq] at hl
            obtain ⟨rfl, rfl, rfl⟩ := hl
            have := (matchDotStar_some hm).2.1
            simpa [Nat.add_assoc] using this
        · exact absurd hl (by simp)
    obtain ⟨g1, g2, g3, _⟩ := matchSample_some hs
    exact ⟨Or.inr ⟨c, d, h1, h2, h3⟩, g1, g2, g3, r, hr⟩
  · cases hm : matchSample s with
    | none => simp [hm] at h
    | some r =>
      obtain ⟨sp0, v0⟩ := r
      simp only [hm, Option.map_some', Option.some.injEq, Prod.mk.injEq] at h
      obtain ⟨rfl, rfl, rfl⟩ := h
      obtain ⟨g1, g2, g3, r, hr⟩ := matchSample_some hm
      exact ⟨Or.inl rfl, g1, g2, g3, r, by simpa using hr⟩

theorem matchNameRest_some :
    ∀ {s n l : List Char} {sp : Char} {v : List Char},
      matchNameRest s = some (n, l, sp, v) →
      (∀ c ∈ n, isNameChar c = true) ∧
        (l = [] ∨ ∃ c d, l = '{' :: c :: (d ++ ['}']) ∧ c ≠ '}' ∧ (∀ x ∈ d, x ≠ '\n')) ∧
        isSpace sp = true ∧ v ≠ [] ∧ (∀ c ∈ v, isSampleChar c = true) ∧
        ∃ r, s = n ++ l ++ sp :: v ++ r
  | [], n, l, sp, v, h => by simp [matchNameRest] at h
  | c :: t, n, l, sp, v, h => by
    rw [matchNameRest] at h
    split at h
    · rename_i n0 r0 hrec
      simp only [Option.some.injEq, Prod.mk.injEq] at h
      obtain ⟨rfl, rfl⟩ := h
      by_cases hc : isNameChar c = true
      · simp only [hc, if_true] at hrec
        obtain ⟨h1, h2, h3, h4, h5, r, hr⟩ := matchNameRest_some hrec
        refine ⟨?_, h2, h3, h4, h5, r, by rw [hr]; simp⟩
        intro x hx
        rcases List.mem_cons.1 hx with rfl | hx
        · exact hc
        · exact h1 x hx
      · simp [hc] at hrec
    · cases hm : matchAfterName (c :: t) with
      | none => simp [hm] at h
      | some r =>
        obtain ⟨l0, sp0, v0⟩ := r
        simp only [hm, Option.map_some', Option.some.injEq, Prod.mk.injEq] at h
        obtain ⟨rfl, rfl, rfl, rfl⟩ := h
        obtain ⟨h2, h3, h4, h5, r, hr⟩ := matchAfterName_some hm
        exact ⟨by simp, h2, h3, h4, h5, r, by simpa using hr⟩

/-- The shape of every match of `metricRegex`. -/
theorem matchAt_some {s : List Char} {m : Submatch} (h : matchAt s = some m) :
    (∃ c n, m.name = c :: n ∧ isNameStart c = true ∧ ∀ x ∈ n, isNameChar x = true) ∧
      (m.labels = [] ∨
        ∃ c d, m.labels = '{' :: c :: (d ++ ['}']) ∧ c ≠ '}' ∧ (∀ x ∈ d, x ≠ '\n')) ∧
      isSpace m.sep = true ∧ m.sample ≠ [] ∧ (∀ c ∈ m.sample, isSampleChar c = true) ∧
      ∃ r, s = m.text ++ r := by
  match s, h with
  | nl :: c :: t, h =>
    simp only [matchAt] at h
    split at h
    · rename_i hc
      obtain ⟨rfl, hc⟩ := hc
      cases hm : matchNameRest t with
      | none => simp [hm] at h
      | some r =>
        obtain ⟨n0, l0, sp0, v0⟩ := r
        simp only [hm, Option.map_some', Option.some.injEq] at h
        subst h
        obtain ⟨h1, h2, h3, h4, h5, r, hr⟩ := matchNameRest_some hm
        exact ⟨⟨c, n0, rfl, hc, h1⟩, h2, h3, h4, h5, r, by rw [hr]; simp [Submatch.text]⟩
    · exact absurd h (by simp)

theorem matchAt_none_of_head {c : Char} (t : List Char) (hc : c ≠ '\n') :
    matchAt (c :: t) = none := by
  cases t with
  | nil => rfl
  | cons d t => simp [matchAt, hc]

theorem text_length_pos (m : Submatch) : m.text.length = (m.text.length - 1) + 1 := by
  simp [Submatch.text]

/-! ## The scan -/

theorem scan_skip : ∀ (xs r : List Char), scan xs.length (xs ++ r) = scan 0 r
  | [], r => by simp
  | x :: xs, r => by
    simp only [List.length_cons, List.cons_append, scan]
    exact scan_skip xs r

theorem segments_nil : segments [] = [] := rfl

theorem segments_cons_none {c : Char} {t : List Char} (h : matchAt (c :: t) = none) :
    segments (c :: t) = Seg.lit c :: segments t := by
  simp [segments, scan, h]

theorem segments_hit {s r : List Char} {m : Submatch} (h : matchAt s = some m)
    (hs : s = m.text ++ r) : segments s = Seg.hit m :: segments r := by
  subst hs
  have h0 := h
  simp only [Submatch.text, List.cons_append] at h ⊢
  simp only [segments, scan, h]
  have : (m.name ++ m.labels ++ m.sep :: m.sample).length = m.text.length - 1 := by
    simp [Submatch.text]
  rw [← this, scan_skip]

theorem segments_lits : ∀ (l r : List Char), (∀ c ∈ l, c ≠ '\n') →
    segments (l ++ r) = l.map Seg.lit ++ segments r
  | [], r, _ => by simp
  | c :: l, r, h => by
    have hc : c ≠ '\n' := h c (by simp)
    rw [List.cons_append, segments_cons_none (matchAt_none_of_head _ hc),
      segments_lits l r (fun x hx => h x (by simp [hx]))]
    simp

/-- The pieces of the scan, put together again, are the text. -/
theorem segments_src (s : List Char) : (segments s).flatMap Seg.src = s := by
  induction' hn : s.length using Nat.strong_induction_on with n ih generalizing s
  cases s with
  | nil => simp [segments_nil]
  | cons c t =>
    cases hm : matchAt (c :: t) with
    | none =>
      rw [segments_cons_none hm]
      simp only [List.flatMap_cons, Seg.src, List.singleton_append, List.cons.injEq, true_and]
      exact ih t.length (by simp [← hn]) t rfl
    | some m =>
      obtain ⟨_, _, _, _, _, r, hr⟩ := matchAt_some hm
      rw [segments_hit hm hr]
      simp only [List.flatMap_cons, Seg.src]
      rw [ih r.length (by rw [← hn, hr]; simp [Submatch.text]; omega) r rfl, ← hr]

theorem transformer_nil (kv : List (List Char)) : transformer kv [] = [] := rfl

theorem transformer_hit (kv : List (List Char)) {s r : List Char} {m : Submatch}
    (h : matchAt s = some m) (hs : s = m.text ++ r) :
    transformer kv s = mergeLabels kv m.slice ++ transformer kv r := by
  simp [transformer, segments_hit h hs, Seg.out]

theorem transformer_cons_none (kv : List (List Char)) {c : Char} {t : List Char}
    (h : matchAt (c :: t) = none) : transformer kv (c :: t) = c :: transformer kv t := by
  simp [transformer, segments_cons_none h, Seg.out]

theorem transformer_lits (kv : List (List Char)) (l r : List Char)
    (h : ∀ c ∈ l, c ≠ '\n') : transformer kv (l ++ r) = l ++ transformer kv r := by
  simp only [transformer, segments_lits l r h, List.flatMap_append]
  congr 1
  clear h
  induction l with
  | nil => rfl
  | cons c l ih => simp [Seg.out, ih]

/-! ## A match of a closed line does not depend on what follows the line -/

theorem takeWhile_sample_append (t r : List Char) (hr : ∀ c ∈ r.head?, c = '\n') :
    (t ++ r).takeWhile isSampleChar = t.takeWhile isSampleChar := by
  induction t with
  | nil =>
    cases r with
    | nil => rfl
    | cons c r =>
      have : c = '\n' := hr c (by simp)
      subst this
      simp [List.takeWhile, isSampleChar_nl]
  | cons c t ih => simp [List.takeWhile_cons, ih]

theorem matchSample_append (s r : List Char) (hs : s ≠ [])
    (hr : ∀ c ∈ r.head?, c = '\n') : matchSample (s ++ r) = matchSample s := by
  match s, hs with
  | [sp], _ =>
    cases r with
    | nil => rfl
    | cons c r =>
      have : c = '\n' := hr c (by simp)
      subst this
      simp [matchSample, isSampleChar_nl]
  | sp :: c :: t, _ =>
    simp only [List.cons_append, matchSample, takeWhile_sample_append t r hr]

theorem matchDotStar_nl_head (r : List Char) (hr : ∀ c ∈ r.head?, c = '\n') :
    matchDotStar r = none := by
  cases r with
  | nil => rfl
  | cons c r =>
    have : c = '\n' := hr c (by simp)
    subst this
    rw [matchDotStar]
    simp

theorem matchDotStar_append : ∀ (s r : List Char), (∀ c ∈ s, c ≠ '\n') →
    s.getLast? ≠ some '}' → (∀ c ∈ r.head?, c = '\n') →
    matchDotStar (s ++ r) = matchDotStar s
  | [], r, _, _, hr => by
    rw [List.nil_append, matchDotStar_nl_head r hr]; rfl
  | c :: t, r, hs, hl, hr => by
    have hc : c ≠ '\n' := hs c (by simp)
    have ht : t.getLast? ≠ some '}' := by
      cases t with
      | nil => simp
      | cons d t => simpa [List.getLast?_cons_cons] using hl
    have ih := matchDotStar_append t r (fun x hx => hs x (by simp [hx])) ht hr
    rw [List.cons_append, matchDotStar, matchDotStar, ih]
    by_cases hb : c = '}'
    · have htn : t ≠ [] := by
        rintro rfl
        exact hl (by simp [hb])
      rw [matchSample_append t r htn hr]
    · simp [hb]

theorem matchLabels_append (s r : List Char) (hs : ∀ c ∈ s, c ≠ '\n')
    (ho : s ≠ ['{']) (hl : s.head? = some '{' → s.getLast? ≠ some '}')
    (hr : ∀ c ∈ r.head?, c = '\n') : matchLabels (s ++ r) = matchLabels s := by
  match s, hs, ho, hl with
  | [], _, _, _ =>
    match r, hr with
    | [], _ => rfl
    | [c], _ => rfl
    | c :: d :: r, hr =>
      have : c = '\n' := hr c (by simp)
      subst this
      simp [matchLabels]
  | [o], _, ho, _ =>
    have ho' : o ≠ '{' := fun h => ho (by rw [h])
    cases r with
    | nil => rfl
    | cons c r => simp [matchLabels, ho']
  | o :: c :: t, hs, _, hl =>
    simp only [List.cons_append, matchLabels]
    by_cases hc : o = '{' ∧ c ≠ '}'
    · have ht : t.getLast? ≠ some '}' := by
        cases t with
        | nil => simp
        | cons d t =>
          have := hl (by simp [hc.1])
          simpa [List.getLast?_cons_cons] using this
      rw [matchDotStar_append t r (fun x hx => hs x (by simp [hx])) ht hr]
    · simp only [hc, if_false]

theorem matchAfterName_append (s r : List Char) (hs : ∀ c ∈ s, c ≠ '\n')
    (hn : s ≠ []) (ho : s ≠ ['{']) (hl : s.head? = some '{' → s.getLast? ≠ some '}')
    (hr : ∀ c ∈ r.head?, c = '\n') : matchAfterName (s ++ r) = matchAfterName s := by
  unfold matchAfterName
  rw [matchLabels_append s r hs ho hl hr, matchSample_append s r hn hr]

theorem matchAfterName_nameChar {c : Char} (t : List Char) (hc : isNameChar c = true) :
    matchAfterName (c :: t) = none := by
  have h1 : matchLabels (c :: t) = none := by
    cases t with
    | nil => rfl
    | cons d t => simp [matchLabels, not_brace_of_isNameChar hc]
  have h2 : matchSample (c :: t) = none := by
    cases t with
    | nil => rfl
    | cons d t => simp [matchSample, not_space_of_isNameChar hc]
  simp [matchAfterName, h1, h2]

theorem matchNameRest_append : ∀ (s r : List Char), (∀ c ∈ s, c ≠ '\n') →
    s.dropWhile isNameChar ≠ [] → s.dropWhile isNameChar ≠ ['{'] →
    ((s.dropWhile isNameChar).head? = some '{' →
      (s.dropWhile isNameChar).getLast? ≠ some '}') →
    (∀ c ∈ r.head?, c = '\n') →
    matchNameRest (s ++ r) = matchNameRest s
  | [], r, _, hn, _, _, _ => absurd rfl hn
  | c :: t, r, hs, hn, ho, hl, hr => by
    rw [List.cons_append, matchNameRest, matchNameRest]
    by_cases hc : isNameChar c = true
    · simp only [List.dropWhile_cons, hc, if_true] at hn ho hl
      simp only [hc, if_true]
      rw [matchNameRest_append t r (fun x hx => hs x (by simp [hx])) hn ho hl hr,
        matchAfterName_nameChar _ hc, matchAfterName_nameChar _ hc]
    · have hc' : isNameChar c = false := by simpa using hc
      simp only [List.dropWhile_cons, hc'] at hn ho hl
      have := matchAfterName_append (c :: t) r hs (by simp) (by simpa using ho)
        (by simpa using hl) hr
      rw [List.cons_append] at this
      simp [hc', this]

/-- A match that starts a closed line is found in the same way whatever text
follows the line. -/
theorem matchAt_line_append (l r : List Char) (hs : ∀ c ∈ l, c ≠ '\n')
    (hopen : openLine l = false) (hr : ∀ c ∈ r.head?, c = '\n') :
    matchAt ('\n' :: (l ++ r)) = matchAt ('\n' :: l) := by
  cases l with
  | nil =>
    cases r with
    | nil => rfl
    | cons c r =>
      have : c = '\n' := hr c (by simp)
      subst this
      simp [matchAt, isNameStart_nl]
  | cons c t =>
    simp only [List.cons_append, matchAt]
    by_cases hc : isNameStart c = true
    · simp only [openLine, hc, Bool.true_and] at hopen
      have hrest : matchNameRest (t ++ r) = matchNameRest t := by
        apply matchNameRest_append t r (fun x hx => hs x (by simp [hx])) _ _ _ hr
        · intro h; rw [h] at hopen; simp at hopen
        · intro h; rw [h] at hopen; simp at hopen
        · intro h
          cases hd : t.dropWhile isNameChar with
          | nil => rw [hd] at h; simp at h
          | cons o q =>
            rw [hd] at h hopen
            simp only [List.head?_cons, Option.some.injEq] at h
            subst h
            cases q with
            | nil => simp at hopen
            | cons d q =>
              simp at hopen
              simpa [List.getLast?_cons_cons] using hopen
      rw [hrest]
    · simp [hc]

/-! ## The replacement text -/

theorem trimSuffixBrace_append (body : List Char) :
    trimSuffixBrace (body ++ ['}']) = body := by
  simp [trimSuffixBrace]

theorem mergeLabels_slice (kv : List (List Char)) (m : Submatch) :
    mergeLabels kv m.slice =
      '\n' :: (m.name ++
        (if m.labels = [] ∧ kv = [] then []
         else if m.labels = [] then '{' :: (joinComma kv ++ ['}'])
         else trimSuffixBrace m.labels ++ ',' :: (joinComma kv ++ ['}'])) ++
        ' ' :: m.sample) := by
  simp only [mergeLabels, Submatch.slice, List.getD_cons_succ, List.getD_cons_zero,
    List.length_eq_zero]
  by_cases h1 : m.labels = [] <;> by_cases h2 : kv = [] <;> simp [h1, h2]

theorem mergeLabels_slice_head (kv : List (List Char)) (m : Submatch) :
    mergeLabels kv m.slice = '\n' :: (mergeLabels kv m.slice).tail := by
  rw [mergeLabels_slice]; rfl

/-! ## Line by line -/

theorem joinLines_cons (l : List Char) (ls : List (List Char)) :
    joinLines (l :: ls) = l ++ ls.flatMap (fun x => '\n' :: x) := by
  induction ls generalizing l with
  | nil => simp [joinLines]
  | cons l' ls ih => simp [joinLines, ih]

theorem flatMap_nl_head (ls : List (List Char)) :
    ∀ c ∈ (ls.flatMap (fun x => '\n' :: x)).head?, c = '\n' := by
  cases ls with
  | nil => simp
  | cons l ls => simp

/-- One closed line in front of further text: the line is rewritten by itself. -/
theorem transformer_line (kv : List (List Char)) (l r : List Char)
    (hs : ∀ c ∈ l, c ≠ '\n') (hopen : openLine l = false)
    (hr : ∀ c ∈ r.head?, c = '\n') :
    transformer kv ('\n' :: (l ++ r)) = '\n' :: (rewriteLine kv l ++ transformer kv r) := by
  have hloc := matchAt_line_append l r hs hopen hr
  cases hm : matchAt ('\n' :: l) with
  | none =>
    rw [hm] at hloc
    rw [transformer_cons_none kv hloc, transformer_lits kv l r hs]
    simp [rewriteLine, hm]
  | some m =>
    rw [hm] at hloc
    obtain ⟨_, _, _, _, _, r0, hr0⟩ := matchAt_some hm
    have hl : l = (m.name ++ m.labels ++ m.sep :: m.sample) ++ r0 := by
      simpa [Submatch.text] using hr0
    have hlen : m.text.length - 1 = (m.name ++ m.labels ++ m.sep :: m.sample).length := by
      simp [Submatch.text]
    have hdrop : l.drop (m.text.length - 1) = r0 := by
      rw [hlen]
      conv_lhs => rw [hl]
      exact List.drop_left _ _
    have hr0nl : ∀ c ∈ r0, c ≠ '\n' := fun c hc => hs c (by rw [hl]; simp [hc])
    have hsplit : '\n' :: (l ++ r) = m.text ++ (r0 ++ r) := by
      rw [← List.cons_append, hr0, List.append_assoc]
    rw [transformer_hit kv hloc hsplit, transformer_lits kv r0 r hr0nl]
    simp only [rewriteLine, hm, hdrop]
    conv_lhs => rw [mergeLabels_slice_head]
    simp

theorem transformer_lines_tail (kv : List (List Char)) (ls : List (List Char))
    (hls : ∀ l ∈ ls, (∀ c ∈ l, c ≠ '\n') ∧ openLine l = false) :
    transformer kv (ls.flatMap (fun x => '\n' :: x)) =
      (ls.map (rewriteLine kv)).flatMap (fun x => '\n' :: x) := by
  induction ls with
  | nil => rfl
  | cons l ls ih =>
    have h1 := hls l (by simp)
    simp only [List.flatMap_cons, List.map_cons, List.cons_append]
    rw [transformer_line kv l _ h1.1 h1.2 (flatMap_nl_head ls),
      ih (fun x hx => hls x (by simp [hx]))]

/-- A text of closed lines is transformed line by line; its first line, which no
newline precedes, is copied. -/
theorem transformer_lines (kv : List (List Char)) (l0 : List Char) (ls : List (List Char))
    (h0 : ∀ c ∈ l0, c ≠ '\n')
    (hls : ∀ l ∈ ls, (∀ c ∈ l, c ≠ '\n') ∧ openLine l = false) :
    transformer kv (joinLines (l0 :: ls)) = joinLines (l0 :: ls.map (rewriteLine kv)) := by
  rw [joinLines_cons, joinLines_cons, transformer_lits kv l0 _ h0,
    transformer_lines_tail kv ls hls]

/-! ## Sample lines, comment lines, blank lines -/

theorem matchNameRest_nameChars : ∀ (n x : List Char), (∀ c ∈ n, isNameChar c = true) →
    matchNameRest (n ++ x) = (matchNameRest x).map (fun r => (n ++ r.1, r.2))
  | [], x, _ => by
    rw [List.nil_append]
    cases matchNameRest x <;> simp
  | c :: n, x, hn => by
    have hc : isNameChar c = true := hn c (by simp)
    rw [List.cons_append, matchNameRest,
      matchNameRest_nameChars n x (fun y hy => hn y (by simp [hy]))]
    cases matchNameRest x with
    | none => simp [hc, matchAfterName_nameChar _ hc]
    | some r => simp [hc]

theorem matchNameRest_nonName {c : Char} (t : List Char) (hc : isNameChar c = false) :
    matchNameRest (c :: t) = (matchAfterName (c :: t)).map (fun r => ([], r)) := by
  rw [matchNameRest]; simp [hc]

theorem matchDotStar_no_brace : ∀ (s : List Char), (∀ c ∈ s, c ≠ '}') →
    matchDotStar s = none
  | [], _ => rfl
  | c :: t, h => by
    have hc : c ≠ '}' := h c (by simp)
    rw [matchDotStar, matchDotStar_no_brace t (fun x hx => h x (by simp [hx]))]
    simp [hc]

theorem matchDotStar_prepend : ∀ (b y : List Char) (r : List Char × Char × List Char),
    (∀ c ∈ b, c ≠ '\n') → matchDotStar y = some r →
    matchDotStar (b ++ y) = some (b ++ r.1, r.2)
  | [], y, r, _, h => by simpa using h
  | c :: b, y, r, hb, h => by
    have hc : c ≠ '\n' := hb c (by simp)
    rw [List.cons_append, matchDotStar,
      matchDotStar_prepend b y r (fun x hx => hb x (by simp [hx])) h]
    simp [hc]

theorem not_close_of_isSampleChar {c : Char} (h : isSampleChar c = true) : c ≠ '}' := by
  rintro rfl; exact absurd h (by decide)

theorem not_close_of_isSpace {c : Char} (h : isSpace c = true) : c ≠ '}' := by
  rintro rfl; exact absurd h (by decide)

theorem not_open_of_isSpace {c : Char} (h : isSpace c = true) : c ≠ '{' := by
  rintro rfl; exact absurd h (by decide)

theorem not_nameChar_of_isSpace {c : Char} (h : isSpace c = true) : isNameChar c = false := by
  cases hn : isNameChar c
  · rfl
  · rw [not_space_of_isNameChar hn] at h; exact absurd h (by simp)

theorem takeWhile_all (p : Char → Bool) : ∀ (l : List Char), (∀ c ∈ l, p c = true) →
    l.takeWhile p = l
  | [], _ => rfl
  | c :: l, h => by
    simp [List.takeWhile_cons, h c (by simp), takeWhile_all p l (fun x hx => h x (by simp [hx]))]

theorem matchSample_exact (sep : Char) (value : List Char) (hsep : isSpace sep = true)
    (hv : value ≠ []) (hval : ∀ c ∈ value, isSampleChar c = true) :
    matchSample (sep :: value) = some (sep, value) := by
  cases value with
  | nil => exact absurd rfl hv
  | cons v vs =>
    simp [matchSample, hsep, hval v (by simp),
      takeWhile_all isSampleChar vs (fun x hx => hval x (by simp [hx]))]

theorem matchDotStar_block (body : List Char) (sep : Char) (value : List Char)
    (hbody : ∀ c ∈ body, c ≠ '\n') (hsep : isSpace sep = true)
    (hv : value ≠ []) (hval : ∀ c ∈ value, isSampleChar c = true) :
    matchDotStar (body ++ '}' :: sep :: value) = some (body, sep, value) := by
  have hinner : matchDotStar (sep :: value) = none :=
    matchDotStar_no_brace _ (by
      intro c hc
      rcases List.mem_cons.1 hc with rfl | hc
      · exact not_close_of_isSpace hsep
      · exact not_close_of_isSampleChar (hval c hc))
  have hclose : matchDotStar ('}' :: sep :: value) = some ([], sep, value) := by
    rw [matchDotStar, hinner]
    simp [matchSample_exact sep value hsep hv hval]
  simpa using matchDotStar_prepend body _ _ hbody hclose

/-- A line `name[{labels}] value` is matched as a whole, with the label block
taken up to its last brace. -/
theorem matchAt_sampleLine (c : Char) (n labels : List Char) (sep : Char) (value : List Char)
    (hc : isNameStart c = true) (hn : ∀ x ∈ n, isNameChar x = true)
    (hl : labels = [] ∨ ∃ b body, labels = '{' :: b :: (body ++ ['}']) ∧ b ≠ '}' ∧
      ∀ x ∈ body, x ≠ '\n')
    (hsep : isSpace sep = true) (hv : value ≠ [])
    (hval : ∀ x ∈ value, isSampleChar x = true) :
    matchAt ('\n' :: (c :: n ++ labels ++ sep :: value)) = some ⟨c :: n, labels, sep, value⟩ := by
  have hafter : matchAfterName (labels ++ sep :: value) = some (labels, sep, value) := by
    rcases hl with rfl | ⟨b, body, rfl, hb, hbody⟩
    · have h1 : matchLabels (sep :: value) = none := by
        cases value with
        | nil => rfl
        | cons v vs => simp [matchLabels, not_open_of_isSpace hsep]
      simp [matchAfterName, h1, matchSample_exact sep value hsep hv hval]
    · have e : '{' :: b :: (body ++ ['}']) ++ sep :: value =
          '{' :: b :: (body ++ '}' :: sep :: value) := by simp
      have h1 : matchLabels ('{' :: b :: (body ++ '}' :: sep :: value)) =
          some ('{' :: b :: (body ++ ['}']), sep, value) := by
        simp only [matchLabels]
        rw [matchDotStar_block body sep value hbody hsep hv hval]
        simp [hb]
      rw [e]
      simp only [matchAfterName, h1]
  have hrest : matchNameRest (labels ++ sep :: value) = some ([], labels, sep, value) := by
    have hne : ∃ o t, labels ++ sep :: value = o :: t ∧ isNameChar o = false := by
      rcases hl with rfl | ⟨b, body, rfl, _, _⟩
      · exact ⟨sep, value, rfl, not_nameChar_of_isSpace hsep⟩
      · exact ⟨'{', _, rfl, by decide⟩
    obtain ⟨o, t, hot, ho⟩ := hne
    rw [hot, matchNameRest_nonName t ho, ← hot, hafter]
    rfl
  have hfull : matchNameRest (n ++ (labels ++ sep :: value)) =
      some (n, labels, sep, value) := by
    rw [matchNameRest_nameChars n _ hn, hrest]
    simp
  simp only [List.cons_append, List.append_assoc, matchAt]
  rw [hfull]
  simp [hc]

/-- A sample line is rewritten to `name + B + " " + value`. -/
theorem rewriteLine_sampleLine (kv : List (List Char)) (c : Char) (n labels : List Char)
    (sep : Char) (value : List Char)
    (hc : isNameStart c = true) (hn : ∀ x ∈ n, isNameChar x = true)
    (hl : labels = [] ∨ ∃ b body, labels = '{' :: b :: (body ++ ['}']) ∧ b ≠ '}' ∧
      ∀ x ∈ body, x ≠ '\n')
    (hsep : isSpace sep = true) (hv : value ≠ [])
    (hval : ∀ x ∈ value, isSampleChar x = true) :
    rewriteLine kv (c :: n ++ labels ++ sep :: value) =
      c :: n ++
        (if labels = [] ∧ kv = [] then []
         else if labels = [] then '{' :: (joinComma kv ++ ['}'])
         else trimSuffixBrace labels ++ ',' :: (joinComma kv ++ ['}'])) ++
        ' ' :: value := by
  have hm := matchAt_sampleLine c n labels sep value hc hn hl hsep hv hval
  simp only [rewriteLine, hm, mergeLabels_slice, List.tail_cons]
  have : (c :: n ++ labels ++ sep :: value).drop
      ((Submatch.text ⟨c :: n, labels, sep, value⟩).length - 1) = [] := by
    apply List.drop_eq_nil_of_le
    simp [Submatch.text]
  rw [this, List.append_nil]

theorem dropWhile_nameChars : ∀ (n x : List Char), (∀ c ∈ n, isNameChar c = true) →
    (n ++ x).dropWhile isNameChar = x.dropWhile isNameChar
  | [], _, _ => rfl
  | c :: n, x, h => by
    simp [List.dropWhile_cons, h c (by simp),
      dropWhile_nameChars n x (fun y hy => h y (by simp [hy]))]

/-- A sample line is closed: its match ends with the line. -/
theorem openLine_sampleLine (c : Char) (n labels : List Char) (sep : Char) (value : List Char)
    (hn : ∀ x ∈ n, isNameChar x = true)
    (hl : labels = [] ∨ ∃ b body, labels = '{' :: b :: (body ++ ['}']))
    (hsep : isSpace sep = true) (hv : value ≠ [])
    (hval : ∀ x ∈ value, isSampleChar x = true) :
    openLine (c :: n ++ labels ++ sep :: value) = false := by
  have hlast : ∀ (p : List Char), (p ++ sep :: value).getLast? ≠ some '}' := by
    intro p h
    have hne : value ≠ [] := hv
    rw [show p ++ sep :: value = (p ++ [sep]) ++ value by simp,
      List.getLast?_append_of_ne_nil _ hne] at h
    have := List.mem_of_getLast?_eq_some h
    exact not_close_of_isSampleChar (hval _ this) rfl
  simp only [List.cons_append, List.append_assoc, openLine]
  rw [dropWhile_nameChars n _ hn]
  rcases hl with rfl | ⟨b, body, rfl⟩
  · simp [List.dropWhile_cons, not_nameChar_of_isSpace hsep, not_open_of_isSpace hsep]
  · have hb : isNameChar '{' = false := by decide
    simp only [List.cons_append, List.dropWhile_cons, hb]
    have := hlast (b :: (body ++ ['}']))
    simp only [List.cons_append, List.append_assoc, List.singleton_append,
      List.nil_append] at this
    simp [this]

/-- No match starts at a line that is empty or does not begin with a name
character (a comment line begins with `#`). -/
theorem matchAt_nonName (l : List Char) (h : ∀ c ∈ l.head?, isNameStart c = false) :
    matchAt ('\n' :: l) = none := by
  cases l with
  | nil => rfl
  | cons c t => simp [matchAt, h c (by simp)]

theorem rewriteLine_nonName (kv : List (List Char)) (l : List Char)
    (h : ∀ c ∈ l.head?, isNameStart c = false) : rewriteLine kv l = l := by
  simp [rewriteLine, matchAt_nonName l h]

theorem openLine_nonName (l : List Char) (h : ∀ c ∈ l.head?, isNameStart c = false) :
    openLine l = false := by
  cases l with
  | nil => rfl
  | cons c t => simp [openLine, h c (by simp)]

/-! ## Splitting into lines -/

theorem splitLines_ne_nil (s : List Char) : splitLines s ≠ [] := by
  cases s with
  | nil => simp [splitLines]
  | cons c t =>
    rw [splitLines]
    split
    · simp
    · split <;> simp

theorem splitLines_cons_of_ne {c : Char} (t : List Char) (hc : c ≠ '\n') :
    ∃ l ls, splitLines t = l :: ls ∧ splitLines (c :: t) = (c :: l) :: ls := by
  cases h : splitLines t with
  | nil => exact absurd h (splitLines_ne_nil t)
  | cons l ls => exact ⟨l, ls, rfl, by rw [splitLines]; simp [hc, h]⟩

theorem splitLines_nl_free : ∀ (s : List Char), ∀ l ∈ splitLines s, ∀ c ∈ l, c ≠ '\n'
  | [], l, hl, c, hc => by
    simp [splitLines] at hl; subst hl; simp at hc
  | d :: t, l, hl, c, hc => by
    by_cases hd : d = '\n'
    · rw [splitLines] at hl
      simp only [hd, if_true, List.mem_cons] at hl
      rcases hl with rfl | hl
      · simp at hc
      · exact splitLines_nl_free t l hl c hc
    · obtain ⟨l0, ls, h1, h2⟩ := splitLines_cons_of_ne t hd
      rw [h2] at hl
      rcases List.mem_cons.1 hl with rfl | hl
      · rcases List.mem_cons.1 hc with rfl | hc
        · exact hd
        · exact splitLines_nl_free t l0 (by rw [h1]; simp) c hc
      · exact splitLines_nl_free t l (by rw [h1]; simp [hl]) c hc

theorem joinLines_splitLines : ∀ (s : List Char), joinLines (splitLines s) = s
  | [] => rfl
  | c :: t => by
    by_cases hc : c = '\n'
    · rw [splitLines]
      simp only [hc, if_true]
      rw [joinLines_cons, List.nil_append]
      cases h : splitLines t with
      | nil => exact absurd h (splitLines_ne_nil t)
      | cons l ls =>
        have := joinLines_splitLines t
        rw [h, joinLines_cons] at this
        simp [this]
    · obtain ⟨l0, ls, h1, h2⟩ := splitLines_cons_of_ne t hc
      have := joinLines_splitLines t
      rw [h1, joinLines_cons] at this
      rw [h2, joinLines_cons, List.cons_append, this]

theorem splitLines_append_nl : ∀ (x y : List Char),
    splitLines (x ++ '\n' :: y) = splitLines x ++ splitLines y
  | [], y => by simp [splitLines]
  | c :: x, y => by
    by_cases hc : c = '\n'
    · rw [List.cons_append, splitLines, splitLines]
      simp [hc, splitLines_append_nl x y]
    · obtain ⟨l0, ls, h1, h2⟩ := splitLines_cons_of_ne x hc
      obtain ⟨l1, ls1, g1, g2⟩ := splitLines_cons_of_ne (x ++ '\n' :: y) hc
      rw [List.cons_append, g2, h2]
      rw [splitLines_append_nl x y, h1] at g1
      simp only [List.cons_append, List.cons.injEq] at g1
      obtain ⟨rfl, rfl⟩ := g1
      simp

theorem splitLines_of_nl_free : ∀ (l : List Char), (∀ c ∈ l, c ≠ '\n') →
    splitLines l = [l]
  | [], _ => rfl
  | c :: l, h => by
    obtain ⟨l0, ls, h1, h2⟩ := splitLines_cons_of_ne l (h c (by simp))
    rw [splitLines_of_nl_free l (fun x hx => h x (by simp [hx]))] at h1
    simp only [List.cons.injEq] at h1
    obtain ⟨rfl, rfl⟩ := h1
    exact h2

theorem splitLines_joinLines : ∀ (l : List Char) (ls : List (List Char)),
    (∀ x ∈ l :: ls, ∀ c ∈ x, c ≠ '\n') → splitLines (joinLines (l :: ls)) = l :: ls
  | l, [], h => by
    simpa [joinLines] using splitLines_of_nl_free l (h l (by simp))
  | l, l' :: ls, h => by
    rw [joinLines, splitLines_append_nl, splitLines_of_nl_free l (h l (by simp)),
      splitLines_joinLines l' ls (fun x hx => h x (by simp [List.mem_cons.1 hx]))]
    rfl

/-! ## The lines of the transformed text -/

theorem mem_joinComma : ∀ (kv : List (List Char)) (c : Char), c ∈ joinComma kv →
    c = ',' ∨ ∃ f ∈ kv, c ∈ f
  | [], c, h => by simp [joinComma] at h
  | [f], c, h => Or.inr ⟨f, by simp, by simpa [joinComma] using h⟩
  | f :: g :: kv, c, h => by
    rw [joinComma] at h
    rcases List.mem_append.1 h with h | h
    · exact Or.inr ⟨f, by simp, h⟩
    · rcases List.mem_cons.1 h with h | h
      · exact Or.inl h
      · rcases mem_joinComma (g :: kv) c h with h | ⟨f', hf', hc⟩
        · exact Or.inl h
        · exact Or.inr ⟨f', List.mem_cons_of_mem _ hf', hc⟩

theorem mem_trimSuffixBrace {s : List Char} {c : Char} (h : c ∈ trimSuffixBrace s) :
    c ∈ s := by
  unfold trimSuffixBrace at h
  split at h
  · exact List.mem_of_mem_dropLast h
  · exact h

/-- The text of a line that starts with a match, taken apart. -/
theorem rewriteLine_some (kv : List (List Char)) {l : List Char} {m : Submatch}
    (hm : matchAt ('\n' :: l) = some m) :
    ∃ r, l = m.name ++ m.labels ++ m.sep :: m.sample ++ r ∧
      rewriteLine kv l = (mergeLabels kv m.slice).tail ++ r := by
  obtain ⟨_, _, _, _, _, r0, hr0⟩ := matchAt_some hm
  have hl : l = (m.name ++ m.labels ++ m.sep :: m.sample) ++ r0 := by
    simpa [Submatch.text] using hr0
  have hlen : m.text.length - 1 = (m.name ++ m.labels ++ m.sep :: m.sample).length := by
    simp [Submatch.text]
  have hdrop : l.drop (m.text.length - 1) = r0 := by
    rw [hlen]
    conv_lhs => rw [hl]
    exact List.drop_left _ _
  exact ⟨r0, hl, by simp only [rewriteLine, hm, hdrop]⟩

theorem rewriteLine_nl_free (kv : List (List Char)) (l : List Char)
    (hkv : ∀ f ∈ kv, ∀ c ∈ f, c ≠ '\n') (hl : ∀ c ∈ l, c ≠ '\n') :
    ∀ c ∈ rewriteLine kv l, c ≠ '\n' := by
  cases hm : matchAt ('\n' :: l) with
  | none => simpa [rewriteLine, hm] using hl
  | some m =>
    obtain ⟨r, h1, h2⟩ := rewriteLine_some kv hm
    have hname : ∀ c ∈ m.name, c ≠ '\n' := fun c hc => hl c (by rw [h1]; simp [hc])
    have hlab : ∀ c ∈ m.labels, c ≠ '\n' := fun c hc => hl c (by rw [h1]; simp [hc])
    have hsam : ∀ c ∈ m.sample, c ≠ '\n' := fun c hc => hl c (by rw [h1]; simp [hc])
    have hr : ∀ c ∈ r, c ≠ '\n' := fun c hc => hl c (by rw [h1]; simp [hc])
    have hjoin : ∀ c ∈ joinComma kv, c ≠ '\n' := by
      intro c hc
      rcases mem_joinComma kv c hc with rfl | ⟨f, hf, hcf⟩
      · decide
      · exact hkv f hf c hcf
    have htrim : ∀ c ∈ trimSuffixBrace m.labels, c ≠ '\n' :=
      fun c hc => hlab c (mem_trimSuffixBrace hc)
    intro c hc
    rw [h2, mergeLabels_slice, List.tail_cons] at hc
    simp only [List.mem_append, List.mem_cons] at hc
    rcases hc with ((hc | hc) | hc | hc) | hc
    · exact hname c hc
    · split at hc
      · simp at hc
      · split at hc
        · simp only [List.mem_cons, List.mem_append, List.not_mem_nil, or_false] at hc
          rcases hc with rfl | hc | rfl
          · decide
          · exact hjoin c hc
          · decide
        · simp only [List.mem_cons, List.mem_append, List.not_mem_nil, or_false] at hc
          rcases hc with hc | rfl | hc | rfl
          · exact htrim c hc
          · decide
          · exact hjoin c hc
          · decide
    · subst hc; decide
    · exact hsam c hc
    · exact hr c hc

theorem rewriteLine_eq_nil_iff (kv : List (List Char)) (l : List Char) :
    rewriteLine kv l = [] ↔ l = [] := by
  cases hm : matchAt ('\n' :: l) with
  | none => simp [rewriteLine, hm]
  | some m =>
    obtain ⟨r, h1, h2⟩ := rewriteLine_some kv hm
    obtain ⟨⟨c, n, hn, _⟩, _⟩ := matchAt_some hm
    constructor
    · intro h
      rw [h2, mergeLabels_slice, List.tail_cons, hn] at h
      simp at h
    · intro h
      rw [h, hn] at h1
      simp at h1

/-- The lines of the output: the first line of the input, and the rewritten
forms of the others, as long as no line is open and no fragment holds a newline. -/
theorem splitLines_transformer (kv : List (List Char)) (doc : List Char)
    (hkv : ∀ f ∈ kv, ∀ c ∈ f, c ≠ '\n')
    (hclosed : ∀ l ∈ (splitLines doc).tail, openLine l = false) :
    ∃ l0 ls, splitLines doc = l0 :: ls ∧
      splitLines (transformer kv doc) = l0 :: ls.map (rewriteLine kv) := by
  cases h : splitLines doc with
  | nil => exact absurd h (splitLines_ne_nil doc)
  | cons l0 ls =>
    refine ⟨l0, ls, rfl, ?_⟩
    have hfree := splitLines_nl_free doc
    rw [h] at hfree hclosed
    have hdoc : doc = joinLines (l0 :: ls) := by rw [← h, joinLines_splitLines]
    rw [hdoc, transformer_lines kv l0 ls (hfree l0 (by simp))
      (fun l hl => ⟨hfree l (by simp [hl]), hclosed l (by simpa using hl)⟩)]
    apply splitLines_joinLines
    intro x hx
    rcases List.mem_cons.1 hx with rfl | hx
    · exact hfree _ (by simp)
    · obtain ⟨l, hl, rfl⟩ := List.mem_map.1 hx
      exact rewriteLine_nl_free kv l hkv (hfree l (by simp [hl]))

theorem countLines_transformer (kv : List (List Char)) (doc : List Char)
    (hkv : ∀ f ∈ kv, ∀ c ∈ f, c ≠ '\n')
    (hclosed : ∀ l ∈ (splitLines doc).tail, openLine l = false) :
    countLines (transformer kv doc) = countLines doc := by
  obtain ⟨l0, ls, h1, h2⟩ := splitLines_transformer kv doc hkv hclosed
  simp only [countLines, h1, h2, List.countP_cons, List.countP_map]
  congr 1
  apply List.countP_congr
  intro l _
  simp only [Function.comp, bne_iff_ne, ne_eq, List.length_eq_zero]
  rw [rewriteLine_eq_nil_iff]

theorem countLines_nil : countLines [] = 0 := by decide

theorem countLines_append_nl (x y : List Char) :
    countLines (x ++ '\n' :: y) = countLines (x ++ ['\n']) + countLines y := by
  simp [countLines, splitLines_append_nl, splitLines]

/-- A text that is empty or ends with a newline keeps that form. -/
theorem transformer_terminated (kv : List (List Char)) (doc : List Char)
    (hclosed : ∀ l ∈ (splitLines doc).tail, openLine l = false)
    (hterm : doc = [] ∨ ∃ x, doc = x ++ ['\n']) :
    transformer kv doc = [] ∨ ∃ x, transformer kv doc = x ++ ['\n'] := by
  rcases hterm with rfl | ⟨x, rfl⟩
  · exact Or.inl rfl
  · right
    have hsplit : splitLines (x ++ ['\n']) = splitLines x ++ [[]] := by
      rw [splitLines_append_nl]; rfl
    cases hx : splitLines x with
    | nil => exact absurd hx (splitLines_ne_nil x)
    | cons l0 ls =>
      rw [hx] at hsplit
      have hfree := splitLines_nl_free (x ++ ['\n'])
      rw [hsplit] at hfree hclosed
      have hdoc : x ++ ['\n'] = joinLines (l0 :: (ls ++ [[]])) := by
        rw [← List.cons_append, ← hsplit, joinLines_splitLines]
      rw [hdoc, transformer_lines kv l0 (ls ++ [[]]) (hfree l0 (by simp))
        (fun l hl => ⟨hfree l (List.mem_cons_of_mem _ hl),
          hclosed l (by simpa using hl)⟩)]
      refine ⟨l0 ++ (ls.map (rewriteLine kv)).flatMap (fun x => '\n' :: x), ?_⟩
      rw [joinLines_cons]
      simp [rewriteLine_nonName]

/-! ## The rewrite rule of `mergeLabels` -/

/-- C1: for every match of `metricRegex`, with submatches name, label block and
sample, and every non-empty fragment list, `mergeLabels` returns the newline,
then `name + B + " " + sample`: without a label block `B` is `{`, the fragments
joined by `,`, and `}`; with one, the block ends in `}` and `B` is the block
without that brace, then `,`, the joined fragments, and `}`. -/
theorem mergeLabels_rewrite_rule (s : List Char) (m : Submatch) (kv : List (List Char))
    (hm : matchAt s = some m) (hkv : kv ≠ []) :
    (m.labels = [] ∧
      mergeLabels kv m.slice =
        '\n' :: (m.name ++ ('{' :: (joinComma kv ++ ['}'])) ++ ' ' :: m.sample)) ∨
    (∃ body, m.labels = body ++ ['}'] ∧
      mergeLabels kv m.slice =
        '\n' :: (m.name ++ (body ++ ',' :: (joinComma kv ++ ['}'])) ++ ' ' :: m.sample)) := by
  obtain ⟨_, hl, _⟩ := matchAt_some hm
  rcases hl with hl | ⟨c, d, hl, _, _⟩
  · left
    refine ⟨hl, ?_⟩
    rw [mergeLabels_slice]
    simp [hl, hkv]
  · right
    refine ⟨'{' :: c :: d, by simp [hl], ?_⟩
    have hne : m.labels ≠ [] := by simp [hl]
    have htrim : trimSuffixBrace m.labels = '{' :: c :: d := by
      rw [hl, show '{' :: c :: (d ++ ['}']) = ('{' :: c :: d) ++ ['}'] by simp,
        trimSuffixBrace_append]
    rw [mergeLabels_slice]
    simp [hne, htrim]

/-- The rule of C1 at the line `up 1` with the fragments `job="A"`, `env="prod"`. -/
theorem mergeLabels_rewrite_rule_witness :
    (matchAt "\nup 1".toList = some ⟨"up".toList, [], ' ', "1".toList⟩ ∧ jobEnv ≠ []) ∧
    (((⟨"up".toList, [], ' ', "1".toList⟩ : Submatch).labels = [] ∧
      mergeLabels jobEnv (Submatch.slice ⟨"up".toList, [], ' ', "1".toList⟩) =
        '\n' :: ("up".toList ++ ('{' :: (joinComma jobEnv ++ ['}'])) ++ ' ' :: "1".toList)) ∨
    (∃ body, (⟨"up".toList, [], ' ', "1".toList⟩ : Submatch).labels = body ++ ['}'] ∧
      mergeLabels jobEnv (Submatch.slice ⟨"up".toList, [], ' ', "1".toList⟩) =
        '\n' :: ("up".toList ++ (body ++ ',' :: (joinComma jobEnv ++ ['}'])) ++
          ' ' :: "1".toList))) :=
  ⟨⟨by decide, by decide⟩,
    mergeLabels_rewrite_rule "\nup 1".toList ⟨"up".toList, [], ' ', "1".toList⟩ jobEnv
      (by decide) (by decide)⟩

/-- The two examples of the rewrite rule, evaluated. -/
theorem mergeLabels_examples :
    transformer jobEnv "\nup 1".toList = "\nup\x7bjob=\"A\",env=\"prod\"\x7d 1".toList ∧
    transformer jobEnv "\nup\x7bc=\"d\"\x7d 1".toList =
      "\nup\x7bc=\"d\",job=\"A\",env=\"prod\"\x7d 1".toList ∧
    transformer fooBar "\ngo_gc_duration_seconds\x7bquantile=\"0\"\x7d 5.871e-06".toList =
      "\ngo_gc_duration_seconds\x7bquantile=\"0\",foo=\"bar\"\x7d 5.871e-06".toList := by
  decide

/-! ## The whole stream -/

/-- C2 at a sample line that stands first in the stream: `metricRegex` begins
with a newline, no newline stands in front of the first line, and the line
`up 1` comes out without the fragment; the same line in second place comes out
as `up{foo="bar"} 1`. -/
theorem first_line_not_rewritten :
    matchAt "up 1".toList = none ∧
    segments "up 1".toList = [Seg.lit 'u', Seg.lit 'p', Seg.lit ' ', Seg.lit '1'] ∧
    transformer fooBar "up 1".toList = "up 1".toList ∧
    transformer fooBar "up 1".toList ≠ "up\x7bfoo=\"bar\"\x7d 1".toList ∧
    transformer fooBar "up 1\nup 1".toList = "up 1\nup\x7bfoo=\"bar\"\x7d 1".toList := by
  decide

set_option maxRecDepth 100000 in
/-- The document of `Test_transformer`, whose first line is a comment, with the
fragment `foo="bar"`: the result is the text the test wants. -/
theorem test_transformer_document :
    transformer fooBar (joinLines (originHead :: originTail)) = joinLines wantLines := by
  decide

/-! ## The empty fragment list -/

/-- C4 at a line with a label block: with the empty fragment list the line
`up{a="b"} 1` comes out as `up{a="b",} 1`, while the line `up 1` without a block
comes out unchanged (a tab between name and value comes out as a space). -/
theorem empty_fragments_labelled_line :
    transformer [] "# c\nup\x7ba=\"b\"\x7d 1".toList = "# c\nup\x7ba=\"b\",\x7d 1".toList ∧
    transformer [] "# c\nup\x7ba=\"b\"\x7d 1".toList ≠ "# c\nup\x7ba=\"b\"\x7d 1".toList ∧
    transformer [] "# c\nup 1".toList = "# c\nup 1".toList ∧
    transformer [] "# c\nup\t1".toList = "# c\nup 1".toList := by
  decide

/-! ## The labels to inject -/

theorem lookup_map_of_nodup {V W : Type} (f : List Char × V → W) :
    ∀ (xs : List (List Char × V)), (xs.map Prod.fst).Nodup →
      ∀ (k : List Char) (v : V), (k, v) ∈ xs →
        (xs.map (fun ne => (ne.1, f ne))).lookup k = some (f (k, v))
  | [], _, k, v, h => by simp at h
  | x :: xs, hnd, k, v, h => by
    rw [List.map_cons, List.nodup_cons] at hnd
    rcases List.mem_cons.1 h with h | h
    · subst h
      simp [List.lookup]
    · have hne : k ≠ x.1 := by
        intro heq
        exact hnd.1 (heq ▸ List.mem_map.2 ⟨(k, v), h, rfl⟩)
      have hbeq : (k == x.1) = false := by simpa using hne
      rw [List.map_cons, List.lookup, hbeq]
      exact lookup_map_of_nodup f xs hnd.2 k v h

/-- C5: for every listener, every exporter `name` of it with label pairs `e.Labels`
and every order in which the ranges yield the exporter's pairs (E) and, in
that exporter's iteration, the common pairs (C): the fragment list that
`handler` builds for the exporter is the pairs of E, each formatted as key,
`="`, value, `"` with nothing escaped, followed by the pairs of C formatted in
the same way; its length is the number of the exporter's pairs plus the number
of the common pairs, and position `i` holds the `i`-th pair of E when `i` is
below the number of the exporter's pairs and a pair of C otherwise, so that no
common fragment stands in front of an exporter-specific one. -/
theorem handler_fragment_order (cfg : ListenerConfig) (r : Ranges) (name : List Char)
    (e : Exporter) (hnames : (cfg.Exporters.map Prod.fst).Nodup)
    (hmem : (name, e) ∈ cfg.Exporters)
    (hE : (r.labels name).Perm e.Labels) (hC : (r.common name).Perm cfg.CommonLabels) :
    (transformers cfg r).lookup name =
      some ((r.labels name).map (fun kv => kv.1 ++ ['=', '"'] ++ kv.2 ++ ['"']) ++
        (r.common name).map (fun kv => kv.1 ++ ['=', '"'] ++ kv.2 ++ ['"'])) ∧
    ((r.labels name).map (fun kv => kv.1 ++ ['=', '"'] ++ kv.2 ++ ['"']) ++
        (r.common name).map (fun kv => kv.1 ++ ['=', '"'] ++ kv.2 ++ ['"'])).length =
      e.Labels.length + cfg.CommonLabels.length ∧
    ∀ i : Nat,
      ((r.labels name).map (fun kv => kv.1 ++ ['=', '"'] ++ kv.2 ++ ['"']) ++
          (r.common name).map (fun kv => kv.1 ++ ['=', '"'] ++ kv.2 ++ ['"']))[i]? =
        if i < e.Labels.length then
          (r.labels name)[i]?.map (fun kv => kv.1 ++ ['=', '"'] ++ kv.2 ++ ['"'])
        else
          (r.common name)[i - e.Labels.length]?.map
            (fun kv => kv.1 ++ ['=', '"'] ++ kv.2 ++ ['"']) := by
  have hlenE : (r.labels name).length = e.Labels.length := hE.length_eq
  have hlenC : (r.common name).length = cfg.CommonLabels.length := hC.length_eq
  refine ⟨?_, ?_, ?_⟩
  · have := lookup_map_of_nodup
      (fun ne : List Char × Exporter =>
        mapToSliceLabels (r.labels ne.1) ++ mapToSliceLabels (r.common ne.1))
      cfg.Exporters hnames name e hmem
    simpa [transformers, mapToSliceLabels] using this
  · simp [hlenE, hlenC]
  · intro i
    by_cases hi : i < e.Labels.length
    · rw [List.getElem?_append_left (by simpa [hlenE] using hi)]
      simp [hi]
    · rw [List.getElem?_append_right (by simpa [hlenE] using hi)]
      simp [hi, hlenE]

/-- Two exporters and two common labels, the common labels being yielded as
`env`, `dc` for the exporter `a` and as `dc`, `env` for the exporter `b`. -/
theorem handler_fragment_order_witness :
    ((twoCommon.Exporters.map Prod.fst).Nodup ∧
      ("a".toList, (⟨"http://a/metrics".toList,
        [("job".toList, "A".toList), ("team".toList, "x".toList)]⟩ : Exporter)) ∈
          twoCommon.Exporters ∧
      (rangesSwapped.labels "a".toList).Perm
        [("job".toList, "A".toList), ("team".toList, "x".toList)] ∧
      (rangesSwapped.common "a".toList).Perm twoCommon.CommonLabels) ∧
    (transformers twoCommon rangesSwapped).lookup "a".toList =
      some ["team=\"x\"".toList, "job=\"A\"".toList, "env=\"prod\"".toList,
        "dc=\"eu\"".toList] ∧
    (transformers twoCommon rangesSwapped).lookup "b".toList =
      some ["dc=\"eu\"".toList, "env=\"prod\"".toList] :=
  ⟨⟨by decide, by decide, by decide, by decide⟩,
    (handler_fragment_order twoCommon rangesSwapped "a".toList
      ⟨"http://a/metrics".toList, [("job".toList, "A".toList), ("team".toList, "x".toList)]⟩
      (by decide) (by decide) (by decide) (by decide)).1.trans (by decide),
    by decide⟩

/-! ## Comment lines and blank lines -/

/-- C3, as stated, fails: a comment line that follows the open line `up{` is
part of the match and is rewritten; a comment line behind a bare name and a
number moves up one line; a fragment with a newline moves it down. -/
theorem comment_line_rewritten :
    ((splitLines "x\nup\x7b\n# \x7d 1".toList)[2]? = some "# \x7d 1".toList ∧
      (splitLines (transformer fooBar "x\nup\x7b\n# \x7d 1".toList))[2]? =
        some "# ,foo=\"bar\"\x7d 1".toList) ∧
    ((splitLines "x\nup\n1\n# c".toList)[3]? = some "# c".toList ∧
      (splitLines (transformer fooBar "x\nup\n1\n# c".toList))[3]? = none) ∧
    ((splitLines "x\nup 1\n# c".toList)[2]? = some "# c".toList ∧
      (splitLines (transformer ["a=\"\n\"".toList] "x\nup 1\n# c".toList))[2]? =
        some "\"\x7d 1".toList) := by
  decide

/-- C3, amended: for every input text in which no line after the first is open,
and every fragment list (empty or not) whose fragments hold no newline, the
output has as many lines as the input, and each input line that is empty or
begins with `#` stands unchanged at the same line position of the output. -/
theorem comment_lines_pass_through (kv : List (List Char)) (doc : List Char)
    (hkv : ∀ f ∈ kv, ∀ c ∈ f, c ≠ '\n')
    (hclosed : ∀ l ∈ (splitLines doc).tail, openLine l = false)
    (i : Nat) (l : List Char) (hi : (splitLines doc)[i]? = some l)
    (hl : l = [] ∨ l.head? = some '#') :
    (splitLines (transformer kv doc)).length = (splitLines doc).length ∧
    (splitLines (transformer kv doc))[i]? = some l := by
  obtain ⟨l0, ls, h1, h2⟩ := splitLines_transformer kv doc hkv hclosed
  rw [h1] at hi
  rw [h1, h2]
  refine ⟨by simp, ?_⟩
  cases i with
  | zero => simpa using hi
  | succ j =>
    simp only [List.getElem?_cons_succ, List.getElem?_map] at hi ⊢
    rw [hi]
    simp only [Option.map_some', Option.some.injEq]
    apply rewriteLine_nonName
    rcases hl with rfl | hl
    · simp
    · intro c hc
      rw [hl] at hc
      simp only [Option.mem_def, Option.some.injEq] at hc
      subst hc
      decide

/-- The comment line and the blank line of a small text, with the fragment
`foo="bar"`. -/
theorem comment_lines_pass_through_witness :
    ((∀ f ∈ fooBar, ∀ c ∈ f, c ≠ '\n') ∧
      (∀ l ∈ (splitLines "# HELP up x\nup 1\n\n# TYPE up gauge".toList).tail,
        openLine l = false) ∧
      (splitLines "# HELP up x\nup 1\n\n# TYPE up gauge".toList)[3]? =
        some "# TYPE up gauge".toList ∧
      ("# TYPE up gauge".toList = [] ∨ "# TYPE up gauge".toList.head? = some '#')) ∧
    ((splitLines (transformer fooBar "# HELP up x\nup 1\n\n# TYPE up gauge".toList)).length =
        (splitLines "# HELP up x\nup 1\n\n# TYPE up gauge".toList).length ∧
      (splitLines (transformer fooBar "# HELP up x\nup 1\n\n# TYPE up gauge".toList))[3]? =
        some "# TYPE up gauge".toList) :=
  ⟨⟨by decide, by decide, by decide, by decide⟩,
    comment_lines_pass_through fooBar "# HELP up x\nup 1\n\n# TYPE up gauge".toList
      (by decide) (by decide) 3 "# TYPE up gauge".toList (by decide) (by decide)⟩

/-! ## The copy loop -/

theorem serveLoop_done (ts : List (List Char × List (List Char))) :
    ∀ (w : Client) (ps : List Payload), (∀ p ∈ ps, p.Body.copy = CopyResult.done) →
      serveLoop ts w ps =
        ⟨w.written ++ ps.flatMap (fun p => transformer ((ts.lookup p.Name).getD []) p.Body.data),
          w.closed ++ ps.map (fun p => p.Body.id)⟩
  | w, [], _ => by simp [serveLoop]
  | w, p :: ps, h => by
    have hp : p.Body.copy = CopyResult.done := h p (by simp)
    rw [serveLoop]
    simp only [copyBody, hp]
    rw [serveLoop_done ts _ ps (fun q hq => h q (by simp [hq]))]
    simp

/-! ## The number of lines -/

theorem countLines_append_terminated (t u : List Char)
    (ht : t = [] ∨ ∃ x, t = x ++ ['\n']) :
    countLines (t ++ u) = countLines t + countLines u := by
  rcases ht with rfl | ⟨x, rfl⟩
  · simp [countLines_nil]
  · rw [List.append_assoc, List.singleton_append, countLines_append_nl]

/-- C6, as stated, fails: two bodies without a final newline run together into
one line, a bare name with a number on the next line become one line, and a
label value with a newline makes two lines of one. -/
theorem line_count_not_preserved :
    ((handler twoExporters (Ranges.listed twoExporters) fetchUnterminated twoExporters.Exporters).written = "a 1b 2".toList ∧
      countLines (handler twoExporters (Ranges.listed twoExporters) fetchUnterminated twoExporters.Exporters).written = 1 ∧
      countLines "a 1".toList + countLines "b 2".toList = 2) ∧
    ((handler oneExporter (Ranges.listed oneExporter) fetchOpenLine oneExporter.Exporters).written =
        "# c\nup\x7bfoo=\"bar\"\x7d 1\n".toList ∧
      countLines (handler oneExporter (Ranges.listed oneExporter) fetchOpenLine oneExporter.Exporters).written = 2 ∧
      countLines "# c\nup\n1\n".toList = 3) ∧
    ((handler newlineLabel (Ranges.listed newlineLabel) fetchPlain newlineLabel.Exporters).written =
        "# c\nup\x7bfoo=\"\n\"\x7d 1\n".toList ∧
      countLines (handler newlineLabel (Ranges.listed newlineLabel) fetchPlain newlineLabel.Exporters).written = 3 ∧
      countLines "# c\nup 1\n".toList = 2) := by
  decide

/-- C6, amended: when every copy succeeds, every body is empty or ends with a
newline, no line after the first of a body is open, and no fragment holds a
newline, the number of non-blank lines of the response is the sum of the
numbers of non-blank lines of the bodies, whatever the order of arrival. -/
theorem merged_line_count (ts : List (List Char × List (List Char))) (ps : List Payload)
    (hdone : ∀ p ∈ ps, p.Body.copy = CopyResult.done)
    (hterm : ∀ p ∈ ps, p.Body.data = [] ∨ p.Body.data.getLast? = some '\n')
    (hclosed : ∀ p ∈ ps, ∀ l ∈ (splitLines p.Body.data).tail, openLine l = false)
    (hkv : ∀ p ∈ ps, ∀ f ∈ (ts.lookup p.Name).getD [], ∀ c ∈ f, c ≠ '\n') :
    countLines (serveLoop ts ⟨[], []⟩ ps).written =
      (ps.map (fun p => countLines p.Body.data)).sum := by
  rw [serveLoop_done ts _ ps hdone]
  simp only [List.nil_append]
  induction ps with
  | nil => simp [countLines_nil]
  | cons p ps ih =>
    have ht : p.Body.data = [] ∨ ∃ x, p.Body.data = x ++ ['\n'] := by
      rcases hterm p (by simp) with h | h
      · exact Or.inl h
      · exact Or.inr (List.getLast?_eq_some_iff.1 h)
    have hT := transformer_terminated ((ts.lookup p.Name).getD []) p.Body.data
      (hclosed p (by simp)) ht
    simp only [List.flatMap_cons, List.map_cons, List.sum_cons]
    rw [countLines_append_terminated _ _ hT,
      countLines_transformer _ _ (hkv p (by simp)) (hclosed p (by simp)),
      ih (fun q hq => hdone q (by simp [hq])) (fun q hq => hterm q (by simp [hq]))
        (fun q hq => hclosed q (by simp [hq])) (fun q hq => hkv q (by simp [hq]))]

set_option maxRecDepth 100000 in
/-- The same body fetched twice: the response has twice its ten lines. -/
theorem merged_line_count_witness :
    ((∀ p ∈ fetchPayloads fetchTwice twoExporters.Exporters, p.Body.copy = CopyResult.done) ∧
      (∀ p ∈ fetchPayloads fetchTwice twoExporters.Exporters,
        p.Body.data = [] ∨ p.Body.data.getLast? = some '\n') ∧
      (∀ p ∈ fetchPayloads fetchTwice twoExporters.Exporters,
        ∀ l ∈ (splitLines p.Body.data).tail, openLine l = false) ∧
      (∀ p ∈ fetchPayloads fetchTwice twoExporters.Exporters,
        ∀ f ∈ ((transformers twoExporters (Ranges.listed twoExporters)).lookup p.Name).getD [], ∀ c ∈ f, c ≠ '\n')) ∧
    countLines (serveLoop (transformers twoExporters (Ranges.listed twoExporters)) ⟨[], []⟩
        (fetchPayloads fetchTwice twoExporters.Exporters)).written = 10 + 10 :=
  ⟨⟨by decide, by decide, by decide, by decide⟩,
    (merged_line_count (transformers twoExporters (Ranges.listed twoExporters))
      (fetchPayloads fetchTwice twoExporters.Exporters)
      (by decide) (by decide) (by decide) (by decide)).trans (by decide)⟩

/-! ## Where a match can hold a newline -/

theorem hit_mem_segments (doc : List Char) (m : Submatch) (h : Seg.hit m ∈ segments doc) :
    ∃ s, matchAt s = some m := by
  induction' hn : doc.length using Nat.strong_induction_on with n ih generalizing doc
  cases doc with
  | nil => simp [segments_nil] at h
  | cons c t =>
    cases hm : matchAt (c :: t) with
    | none =>
      rw [segments_cons_none hm] at h
      simp only [List.mem_cons, reduceCtorEq, false_or] at h
      exact ih t.length (by simp [← hn]) t h rfl
    | some m' =>
      obtain ⟨_, _, _, _, _, r, hr⟩ := matchAt_some hm
      rw [segments_hit hm hr] at h
      rcases List.mem_cons.1 h with h | h
      · simp only [Seg.hit.injEq] at h
        subst h
        exact ⟨_, hm⟩
      · exact ih r.length (by rw [← hn, hr]; simp [Submatch.text]; omega) r h rfl

theorem segments_lits_only (l : List Char) (h : ∀ c ∈ l, c ≠ '\n') :
    segments l = l.map Seg.lit := by
  have := segments_lits l [] h
  simpa [segments_nil] using this

/-- The pieces of one closed line in front of further text are the pieces of
the line by itself. -/
theorem segments_line (l r : List Char) (hs : ∀ c ∈ l, c ≠ '\n')
    (hopen : openLine l = false) (hr : ∀ c ∈ r.head?, c = '\n') :
    segments ('\n' :: (l ++ r)) = segments ('\n' :: l) ++ segments r := by
  have hloc := matchAt_line_append l r hs hopen hr
  cases hm : matchAt ('\n' :: l) with
  | none =>
    rw [hm] at hloc
    rw [segments_cons_none hloc, segments_cons_none hm, segments_lits l r hs,
      segments_lits_only l hs]
    simp
  | some m =>
    rw [hm] at hloc
    obtain ⟨_, _, _, _, _, r0, hr0⟩ := matchAt_some hm
    have hl : l = (m.name ++ m.labels ++ m.sep :: m.sample) ++ r0 := by
      simpa [Submatch.text] using hr0
    have hr0nl : ∀ c ∈ r0, c ≠ '\n' := fun c hc => hs c (by rw [hl]; simp [hc])
    have hsplit : '\n' :: (l ++ r) = m.text ++ (r0 ++ r) := by
      rw [← List.cons_append, hr0, List.append_assoc]
    rw [segments_hit hloc hsplit, segments_hit hm hr0, segments_lits r0 r hr0nl,
      segments_lits_only r0 hr0nl]
    simp

theorem segments_lines_tail (ls : List (List Char))
    (hls : ∀ l ∈ ls, (∀ c ∈ l, c ≠ '\n') ∧ openLine l = false) :
    segments (ls.flatMap (fun x => '\n' :: x)) =
      ls.flatMap (fun l => segments ('\n' :: l)) := by
  induction ls with
  | nil => rfl
  | cons l ls ih =>
    have h1 := hls l (by simp)
    simp only [List.flatMap_cons, List.cons_append]
    rw [segments_line l _ h1.1 h1.2 (flatMap_nl_head ls),
      ih (fun x hx => hls x (by simp [hx]))]

/-- A match found at the start of a line lies within the line. -/
theorem hit_in_line (l : List Char) (m : Submatch) (hs : ∀ c ∈ l, c ≠ '\n')
    (h : Seg.hit m ∈ segments ('\n' :: l)) : ∀ c ∈ m.text.tail, c ≠ '\n' := by
  cases hm : matchAt ('\n' :: l) with
  | none =>
    rw [segments_cons_none hm, segments_lits_only l hs] at h
    simp at h
  | some m' =>
    obtain ⟨_, _, _, _, _, r0, hr0⟩ := matchAt_some hm
    have hl : l = (m'.name ++ m'.labels ++ m'.sep :: m'.sample) ++ r0 := by
      simpa [Submatch.text] using hr0
    have hr0nl : ∀ c ∈ r0, c ≠ '\n' := fun c hc => hs c (by rw [hl]; simp [hc])
    rw [segments_hit hm hr0, segments_lits_only r0 hr0nl] at h
    simp only [List.mem_cons, Seg.hit.injEq, List.mem_map, reduceCtorEq, and_false,
      exists_false, or_false] at h
    subst h
    intro c hc
    apply hs c
    rw [hl]
    simp only [Submatch.text, List.tail_cons] at hc
    exact List.mem_append_left _ hc

/-- In a text without open lines every match lies within one line. -/
theorem hit_within_line_of_closed (doc : List Char) (m : Submatch)
    (hclosed : ∀ l ∈ (splitLines doc).tail, openLine l = false)
    (hm : Seg.hit m ∈ segments doc) : ∀ c ∈ m.text.tail, c ≠ '\n' := by
  cases h : splitLines doc with
  | nil => exact absurd h (splitLines_ne_nil doc)
  | cons l0 ls =>
    have hfree := splitLines_nl_free doc
    rw [h] at hfree hclosed
    have hdoc : doc = joinLines (l0 :: ls) := by rw [← h, joinLines_splitLines]
    have hls : ∀ l ∈ ls, (∀ c ∈ l, c ≠ '\n') ∧ openLine l = false :=
      fun l hl => ⟨hfree l (by simp [hl]), hclosed l (by simpa using hl)⟩
    rw [hdoc, joinLines_cons, segments_lits l0 _ (hfree l0 (by simp)),
      segments_lines_tail ls hls] at hm
    rcases List.mem_append.1 hm with hm | hm
    · simp at hm
    · obtain ⟨l, hl, hml⟩ := List.mem_flatMap.1 hm
      exact hit_in_line l m (hls l hl).1 hml

theorem mergeLabels_tail_nl_free (kv : List (List Char)) (m : Submatch)
    (hkv : ∀ f ∈ kv, ∀ c ∈ f, c ≠ '\n') (hname : ∀ c ∈ m.name, c ≠ '\n')
    (hlab : ∀ c ∈ m.labels, c ≠ '\n') (hsam : ∀ c ∈ m.sample, c ≠ '\n') :
    ∀ c ∈ (mergeLabels kv m.slice).tail, c ≠ '\n' := by
  have hjoin : ∀ c ∈ joinComma kv, c ≠ '\n' := by
    intro c hc
    rcases mem_joinComma kv c hc with rfl | ⟨f, hf, hcf⟩
    · decide
    · exact hkv f hf c hcf
  have htrim : ∀ c ∈ trimSuffixBrace m.labels, c ≠ '\n' :=
    fun c hc => hlab c (mem_trimSuffixBrace hc)
  intro c hc
  rw [mergeLabels_slice, List.tail_cons] at hc
  simp only [List.mem_append, List.mem_cons] at hc
  rcases hc with (hc | hc) | hc | hc
  · exact hname c hc
  · split at hc
    · simp at hc
    · split at hc
      · simp only [List.mem_cons, List.mem_append, List.not_mem_nil, or_false] at hc
        rcases hc with rfl | hc | rfl
        · decide
        · exact hjoin c hc
        · decide
      · simp only [List.mem_cons, List.mem_append, List.not_mem_nil, or_false] at hc
        rcases hc with hc | rfl | hc | rfl
        · exact htrim c hc
        · decide
        · exact hjoin c hc
        · decide
  · subst hc; decide
  · exact hsam c hc

/-- C9, as stated, fails: in the text `up`, newline, `1` the newline is taken by
`\s`, the match runs over two lines, and the rewrite joins them; in `up{`,
newline, `a} 1` the newline is taken by `[^\}]`. -/
theorem match_spans_lines :
    segments "\nup\n1".toList = [Seg.hit ⟨"up".toList, [], '\n', "1".toList⟩] ∧
    '\n' ∈ (Submatch.text ⟨"up".toList, [], '\n', "1".toList⟩).tail ∧
    transformer fooBar "\nup\n1".toList = "\nup\x7bfoo=\"bar\"\x7d 1".toList ∧
    segments "\nup\x7b\na\x7d 1".toList =
      [Seg.hit ⟨"up".toList, "\x7b\na\x7d".toList, ' ', "1".toList⟩] := by
  decide

/-- C9, amended: for every input text, every fragment list and every match of
`metricRegex` in the text, the matched text is a connected part of the text.
The name and the sample hold no newline, the separator is one white-space
character, and the label block, if there is one, is `{`, one character other
than `}`, text without a newline, and `}`: besides the newline that opens the
match, a newline can stand only right after `{` or as the separator.  When
neither is a newline the matched text is the opening newline and text without
a newline, and what `mergeLabels` writes in its place is again that newline and
text which holds no newline unless a fragment does.  In a text without open
lines every match is of this kind, and, the fragments holding no newline, the
output has as many lines as the input and every line at whose start no match
is found stands unchanged at its place: the rewrite of one line takes and alters
no character of another. -/
theorem match_newline_positions (doc : List Char) (kv : List (List Char)) (m : Submatch)
    (hm : Seg.hit m ∈ segments doc) :
    (∃ before after, segments doc = before ++ Seg.hit m :: after ∧
      doc = before.flatMap Seg.src ++ m.text ++ after.flatMap Seg.src) ∧
    ((∀ c ∈ m.name, c ≠ '\n') ∧ (∀ c ∈ m.sample, c ≠ '\n') ∧ isSpace m.sep = true ∧
      (m.labels = [] ∨
        ∃ b d, m.labels = '{' :: b :: (d ++ ['}']) ∧ b ≠ '}' ∧ ∀ c ∈ d, c ≠ '\n')) ∧
    (m.sep ≠ '\n' → m.labels[1]? ≠ some '\n' →
      (∀ c ∈ m.text.tail, c ≠ '\n') ∧
      mergeLabels kv m.slice = '\n' :: (mergeLabels kv m.slice).tail ∧
      ((∀ f ∈ kv, ∀ c ∈ f, c ≠ '\n') → ∀ c ∈ (mergeLabels kv m.slice).tail, c ≠ '\n')) ∧
    ((∀ l ∈ (splitLines doc).tail, openLine l = false) →
      (∀ c ∈ m.text.tail, c ≠ '\n') ∧
      ((∀ f ∈ kv, ∀ c ∈ f, c ≠ '\n') →
        (splitLines (transformer kv doc)).length = (splitLines doc).length ∧
        ∀ (i : Nat) (l : List Char), (splitLines doc)[i]? = some l →
          matchAt ('\n' :: l) = none →
          (splitLines (transformer kv doc))[i]? = some l)) := by
  obtain ⟨s, hs⟩ := hit_mem_segments doc m hm
  obtain ⟨⟨c0, n0, hname, hc0, hn0⟩, hl, hsp, _, hsample, _⟩ := matchAt_some hs
  have h1 : ∀ c ∈ m.name, c ≠ '\n' := by
    intro c hc
    rw [hname] at hc
    rcases List.mem_cons.1 hc with rfl | hc
    · exact not_nl_of_isNameChar (isNameChar_of_isNameStart hc0)
    · exact not_nl_of_isNameChar (hn0 c hc)
  have h2 : ∀ c ∈ m.sample, c ≠ '\n' := fun c hc => not_nl_of_isSampleChar (hsample c hc)
  refine ⟨?_, ⟨h1, h2, hsp, hl⟩, ?_, ?_⟩
  · obtain ⟨before, after, hsplit⟩ := List.append_of_mem hm
    refine ⟨before, after, hsplit, ?_⟩
    have := segments_src doc
    rw [hsplit] at this
    simpa [Seg.src] using this.symm
  · intro hsep hsecond
    have hlab : ∀ c ∈ m.labels, c ≠ '\n' := by
      rcases hl with hl | ⟨b, d, hl, _, hd⟩
      · simp [hl]
      · intro c hc
        rw [hl] at hc hsecond
        simp only [List.mem_cons, List.mem_append, List.not_mem_nil, or_false] at hc
        rcases hc with rfl | rfl | hc | rfl
        · decide
        · simpa using hsecond
        · exact hd c hc
        · decide
    refine ⟨?_, mergeLabels_slice_head kv m, ?_⟩
    · intro c hc
      simp only [Submatch.text, List.tail_cons, List.mem_append, List.mem_cons] at hc
      rcases hc with (hc | hc) | rfl | hc
      · exact h1 c hc
      · exact hlab c hc
      · exact hsep
      · exact h2 c hc
    · intro hkv
      exact mergeLabels_tail_nl_free kv m hkv h1 hlab h2
  · intro hclosed
    refine ⟨hit_within_line_of_closed doc m hclosed hm, ?_⟩
    intro hkv
    obtain ⟨l0, ls, g1, g2⟩ := splitLines_transformer kv doc hkv hclosed
    rw [g1, g2]
    refine ⟨by simp, ?_⟩
    intro i l hi hnone
    cases i with
    | zero => simpa using hi
    | succ j =>
      simp only [List.getElem?_cons_succ, List.getElem?_map] at hi ⊢
      rw [hi]
      simp [rewriteLine, hnone]

/-- The match in the text `# c`, newline, `up{a="b"} 1`, with the fragment
`foo="bar"`. -/
theorem match_newline_positions_witness :
    Seg.hit ⟨"up".toList, "\x7ba=\"b\"\x7d".toList, ' ', "1".toList⟩ ∈
        segments "# c\nup\x7ba=\"b\"\x7d 1".toList ∧
    ((∀ c ∈ "up".toList, c ≠ '\n') ∧ (∀ c ∈ "1".toList, c ≠ '\n') ∧ isSpace ' ' = true ∧
      ("\x7ba=\"b\"\x7d".toList = [] ∨
        ∃ b d, "\x7ba=\"b\"\x7d".toList = '{' :: b :: (d ++ ['}']) ∧ b ≠ '}' ∧
          ∀ c ∈ d, c ≠ '\n')) ∧
    mergeLabels fooBar (Submatch.slice ⟨"up".toList, "\x7ba=\"b\"\x7d".toList, ' ', "1".toList⟩) =
      "\nup\x7ba=\"b\",foo=\"bar\"\x7d 1".toList :=
  ⟨by decide,
    (match_newline_positions "# c\nup\x7ba=\"b\"\x7d 1".toList fooBar
      ⟨"up".toList, "\x7ba=\"b\"\x7d".toList, ' ', "1".toList⟩ (by decide)).2.1,
    by decide⟩

/-! ## The fetch fan-out -/

theorem fetchPayloads_length (fetch : List Char → Exporter → FetchResult)
    (order : List (List Char × Exporter)) :
    (fetchPayloads fetch order).length ≤ order.length :=
  List.length_filterMap_le _ _

theorem fetchPayloads_mem (fetch : List Char → Exporter → FetchResult)
    (order : List (List Char × Exporter)) (p : Payload)
    (hp : p ∈ fetchPayloads fetch order) :
    ∃ e, (p.Name, e) ∈ order ∧ fetch p.Name e = FetchResult.response p.Body := by
  obtain ⟨ne, hne, hf⟩ := List.mem_filterMap.1 hp
  cases hfe : fetch ne.1 ne.2 with
  | failed => simp [hfe] at hf
  | response body =>
    simp only [hfe, Option.some.injEq] at hf
    subst hf
    exact ⟨ne.2, hne, hfe⟩

theorem fetchPayloads_cons_failed (fetch : List Char → Exporter → FetchResult)
    (ne : List Char × Exporter) (order : List (List Char × Exporter))
    (h : fetch ne.1 ne.2 = FetchResult.failed) :
    fetchPayloads fetch (ne :: order) = fetchPayloads fetch order := by
  simp only [fetchPayloads, List.filterMap_cons, h]

theorem fetchPayloads_cons_response (fetch : List Char → Exporter → FetchResult)
    (ne : List Char × Exporter) (order : List (List Char × Exporter)) (body : ReadCloser)
    (h : fetch ne.1 ne.2 = FetchResult.response body) :
    fetchPayloads fetch (ne :: order) = ⟨ne.1, body⟩ :: fetchPayloads fetch order := by
  simp only [fetchPayloads, List.filterMap_cons, h]

theorem fetchPayloads_filter (fetch : List Char → Exporter → FetchResult) :
    ∀ (order : List (List Char × Exporter)), (order.map Prod.fst).Nodup →
      ∀ (name : List Char) (e : Exporter), (name, e) ∈ order →
        (fetchPayloads fetch order).filter (fun p => decide (p.Name = name)) =
          match fetch name e with
          | FetchResult.failed => []
          | FetchResult.response body => [⟨name, body⟩]
  | [], _, name, e, h => by simp at h
  | ne :: order, hnd, name, e, h => by
    rw [List.map_cons, List.nodup_cons] at hnd
    obtain ⟨hnot, hnd⟩ := hnd
    have hrest : ∀ p ∈ fetchPayloads fetch order, p.Name ∈ order.map Prod.fst := by
      intro p hp
      obtain ⟨e', he', _⟩ := fetchPayloads_mem fetch order p hp
      exact List.mem_map.2 ⟨(p.Name, e'), he', rfl⟩
    rcases List.mem_cons.1 h with h | h
    · subst h
      have hnone : (fetchPayloads fetch order).filter (fun p => decide (p.Name = name)) = [] := by
        rw [List.filter_eq_nil_iff]
        intro p hp hname
        have hname' : p.Name = name := of_decide_eq_true hname
        exact hnot (hname' ▸ hrest p hp)
      cases hfe : fetch name e with
      | failed =>
        rw [fetchPayloads_cons_failed fetch (name, e) order hfe, hnone]
      | response body =>
        rw [fetchPayloads_cons_response fetch (name, e) order body hfe, List.filter_cons,
          hnone]
        simp
    · have hne : ne.1 ≠ name := by
        intro heq
        exact hnot (heq ▸ List.mem_map.2 ⟨(name, e), h, rfl⟩)
      have ih := fetchPayloads_filter fetch order hnd name e h
      cases hfe : fetch ne.1 ne.2 with
      | failed =>
        rw [fetchPayloads_cons_failed fetch ne order hfe]
        exact ih
      | response body =>
        rw [fetchPayloads_cons_response fetch ne order body hfe, List.filter_cons]
        have : decide (ne.1 = name) = false := decide_eq_false hne
        simp only [this]
        exact ih

/-- C7: for every listener, however its transformers were set up, every outcome
of the fetches and every order in which the fetch goroutines finish, the payload sequence is no longer than the
number of exporters, holds exactly one payload, with the exporter's name and
body, for each exporter whose request succeeded, and none for an exporter whose
request failed; and when no copy fails, the handler writes the transformed
bodies of all of them to the response, in the order of arrival, and closes
them. -/
theorem fetch_failure_degrades (cfg : ListenerConfig) (r : Ranges)
    (fetch : List Char → Exporter → FetchResult) (order : List (List Char × Exporter))
    (horder : order.Perm cfg.Exporters) (hnames : (cfg.Exporters.map Prod.fst).Nodup) :
    (fetchPayloads fetch order).length ≤ cfg.Exporters.length ∧
    (∀ (name : List Char) (e : Exporter) (body : ReadCloser), (name, e) ∈ cfg.Exporters →
      fetch name e = FetchResult.response body →
      (fetchPayloads fetch order).filter (fun p => decide (p.Name = name)) = [⟨name, body⟩]) ∧
    (∀ (name : List Char) (e : Exporter), (name, e) ∈ cfg.Exporters →
      fetch name e = FetchResult.failed →
      ∀ p ∈ fetchPayloads fetch order, p.Name ≠ name) ∧
    ((∀ p ∈ fetchPayloads fetch order, p.Body.copy = CopyResult.done) →
      handler cfg r fetch order =
        ⟨(fetchPayloads fetch order).flatMap
            (fun p => transformer (((transformers cfg r).lookup p.Name).getD []) p.Body.data),
          (fetchPayloads fetch order).map (fun p => p.Body.id)⟩) := by
  have hnd : (order.map Prod.fst).Nodup :=
    ((horder.map Prod.fst).nodup_iff).2 hnames
  refine ⟨?_, ?_, ?_, ?_⟩
  · rw [← horder.length_eq]
    exact fetchPayloads_length fetch order
  · intro name e body hmem hf
    have := fetchPayloads_filter fetch order hnd name e (horder.mem_iff.2 hmem)
    rw [hf] at this
    exact this
  · intro name e hmem hf p hp hname
    have := fetchPayloads_filter fetch order hnd name e (horder.mem_iff.2 hmem)
    rw [hf] at this
    have hmem' : p ∈ (fetchPayloads fetch order).filter (fun p => decide (p.Name = name)) :=
      List.mem_filter.2 ⟨hp, by simpa using hname⟩
    rw [this] at hmem'
    simp at hmem'
  · intro hdone
    rw [handler, serveLoop_done _ _ _ hdone]
    simp

/-- Three exporters of which `b` cannot be reached: two payloads arrive, and the
response holds the labelled bodies of `c` and `a`. -/
theorem fetch_failure_degrades_witness :
    (orderCAB.Perm threeExporters.Exporters ∧
      (threeExporters.Exporters.map Prod.fst).Nodup) ∧
    (fetchPayloads fetchOneDown orderCAB).length ≤ threeExporters.Exporters.length ∧
    (handler threeExporters (Ranges.listed threeExporters) fetchOneDown orderCAB).written =
      "# c\nup\x7benv=\"prod\"\x7d 0\n# a\nup\x7bjob=\"A\",env=\"prod\"\x7d 1\n".toList ∧
    (handler threeExporters (Ranges.listed threeExporters) fetchOneDown orderCAB).closed = [3, 1] :=
  ⟨⟨by decide, by decide⟩,
    (fetch_failure_degrades threeExporters (Ranges.listed threeExporters) fetchOneDown orderCAB
      (by decide) (by decide)).1,
    by decide, by decide⟩

/-! ## Closing the bodies -/

/-- C8 at a failing copy: both bodies are delivered, the copy of the first
fails, the handler returns, and `Close` was called on the first body only. -/
theorem body_left_open_after_copy_failure :
    (fetchPayloads fetchCopyFails twoExporters.Exporters).map (fun p => p.Body.id) = [1, 2] ∧
    (handler twoExporters (Ranges.listed twoExporters) fetchCopyFails twoExporters.Exporters).closed = [1] ∧
    (handler twoExporters (Ranges.listed twoExporters) fetchCopyFails twoExporters.Exporters).closed.count 2 = 0 := by
  decide

/-! ## Values that are not numbers -/

theorem matchDotStar_none_prepend : ∀ (b y : List Char), (∀ c ∈ b, c ≠ '}') →
    matchDotStar y = none → matchDotStar (b ++ y) = none
  | [], y, _, h => by simpa using h
  | c :: b, y, hb, h => by
    have hc : c ≠ '}' := hb c (by simp)
    rw [List.cons_append, matchDotStar,
      matchDotStar_none_prepend b y (fun x hx => hb x (by simp [hx])) h]
    simp [hc]

/-- No match starts at a line `name[{labels}] value` whose value begins outside
the sample class, when the label content and, behind a label block, the value
hold no `}`. -/
theorem matchAt_nonNumeric (c : Char) (n labels : List Char) (v : Char) (vs : List Char)
    (hn : ∀ x ∈ n, isNameChar x = true)
    (hl : labels = [] ∨ ∃ content, labels = '{' :: (content ++ ['}']) ∧
      ∀ x ∈ content, x ≠ '}' ∧ x ≠ '\n')
    (hv : isSampleChar v = false)
    (hbrace : labels ≠ [] → ∀ x ∈ v :: vs, x ≠ '}') :
    matchAt ('\n' :: (c :: n ++ labels ++ ' ' :: v :: vs)) = none := by
  have hafter : matchAfterName (labels ++ ' ' :: v :: vs) = none := by
    rcases hl with rfl | ⟨content, rfl, hcontent⟩
    · simp [matchAfterName, matchLabels, matchSample, hv]
    · have hb := hbrace (by simp)
      have hinner : matchDotStar (' ' :: v :: vs) = none :=
        matchDotStar_no_brace _ (by
          intro x hx
          rcases List.mem_cons.1 hx with rfl | hx
          · decide
          · exact hb x hx)
      have hclose : matchDotStar ('}' :: ' ' :: v :: vs) = none := by
        rw [matchDotStar, hinner]
        simp [matchSample, hv]
      have hlab : matchLabels ('{' :: (content ++ '}' :: ' ' :: v :: vs)) = none := by
        cases content with
        | nil => simp [matchLabels]
        | cons b body =>
          have hbne : b ≠ '}' := (hcontent b (by simp)).1
          simp only [List.cons_append, matchLabels]
          rw [matchDotStar_none_prepend body _
            (fun x hx => (hcontent x (by simp [hx])).1) hclose]
          simp
      have hsam : matchSample ('{' :: (content ++ '}' :: ' ' :: v :: vs)) = none := by
        cases content <;> simp [matchSample, isSpace]
      have e : '{' :: (content ++ ['}']) ++ ' ' :: v :: vs =
          '{' :: (content ++ '}' :: ' ' :: v :: vs) := by simp
      rw [e]
      simp only [matchAfterName, hlab, hsam, Option.map_none']
  have hrest : matchNameRest (labels ++ ' ' :: v :: vs) = none := by
    have hne : ∃ o t, labels ++ ' ' :: v :: vs = o :: t ∧ isNameChar o = false := by
      rcases hl with rfl | ⟨content, rfl, _⟩
      · exact ⟨' ', _, rfl, by decide⟩
      · exact ⟨'{', _, rfl, by decide⟩
    obtain ⟨o, t, hot, ho⟩ := hne
    rw [hot, matchNameRest_nonName t ho, ← hot, hafter]
    rfl
  have hfull : matchNameRest (n ++ (labels ++ ' ' :: v :: vs)) = none := by
    rw [matchNameRest_nameChars n _ hn, hrest]
    rfl
  simp only [List.cons_append, List.append_assoc, matchAt]
  rw [hfull]
  simp

theorem openLine_nonNumeric (c : Char) (n labels : List Char) (v : Char) (vs : List Char)
    (hn : ∀ x ∈ n, isNameChar x = true)
    (hl : labels = [] ∨ ∃ content, labels = '{' :: (content ++ ['}']))
    (hbrace : labels ≠ [] → ∀ x ∈ v :: vs, x ≠ '}') :
    openLine (c :: n ++ labels ++ ' ' :: v :: vs) = false := by
  simp only [List.cons_append, List.append_assoc, openLine]
  rw [dropWhile_nameChars n _ hn]
  rcases hl with rfl | ⟨content, rfl⟩
  · have hsp : isNameChar ' ' = false := by decide
    simp [List.dropWhile_cons, hsp]
  · have hb := hbrace (by simp)
    have hopen : isNameChar '{' = false := by decide
    have hlast : (v :: vs).getLast? ≠ some '}' :=
      fun h => hb _ (List.mem_of_getLast?_eq_some h) rfl
    simp only [List.cons_append, List.dropWhile_cons, hopen, List.append_assoc,
      List.singleton_append]
    simp [hlast]

theorem transformer_lines_then (kv : List (List Char)) (ls : List (List Char))
    (r : List Char) (hls : ∀ l ∈ ls, (∀ c ∈ l, c ≠ '\n') ∧ openLine l = false)
    (hr : ∀ c ∈ r.head?, c = '\n') :
    transformer kv (ls.flatMap (fun x => '\n' :: x) ++ r) =
      (ls.map (rewriteLine kv)).flatMap (fun x => '\n' :: x) ++ transformer kv r := by
  induction ls with
  | nil => rfl
  | cons l ls ih =>
    have h1 := hls l (by simp)
    have hhead : ∀ c ∈ (ls.flatMap (fun x => '\n' :: x) ++ r).head?, c = '\n' := by
      cases ls with
      | nil => simpa using hr
      | cons l' ls' => simp
    simp only [List.flatMap_cons, List.map_cons, List.cons_append, List.append_assoc]
    rw [transformer_line kv l _ h1.1 h1.2 hhead, ih (fun x hx => hls x (by simp [hx]))]

/-- C10, as stated, fails: the value text `x} 1` begins with `x`, outside the
sample class, and the label content `a="b"` holds no `}`, yet the line is
matched, with the label block running on to the `}` of the value; and behind
the open line `up` the line `e NaN` is taken into the match of that line. -/
theorem brace_in_value_matched :
    (matchAt "\nup\x7ba=\"b\"\x7d x\x7d 1".toList =
        some ⟨"up".toList, "\x7ba=\"b\"\x7d x\x7d".toList, ' ', "1".toList⟩ ∧
      transformer fooBar "\nup\x7ba=\"b\"\x7d x\x7d 1".toList =
        "\nup\x7ba=\"b\"\x7d x,foo=\"bar\"\x7d 1".toList) ∧
    transformer fooBar "# c\nup\ne NaN".toList = "# c\nup\x7bfoo=\"bar\"\x7d e NaN".toList := by
  decide

/-- C10, amended: for every metric name, every label block whose content holds no
`}` and no newline (or no label block), every value text that holds no newline,
begins with a character outside `0-9 e E . + -` and, behind a label block,
holds no `}`, and every fragment list: no match of `metricRegex` starts at the
newline in front of the line `name value` or `name{labels} value`, whatever
follows the line; and where the line stands first in the stream, or behind
lines of which none but the first is open, the transformer writes the line
unchanged, between what it writes for the text before the line and what it
writes for the text behind it. -/
theorem non_numeric_value_unchanged (kv : List (List Char)) (l0 : List Char)
    (pre : List (List Char)) (c : Char) (n labels : List Char) (v : Char)
    (vs rest : List Char)
    (h0 : ∀ x ∈ l0, x ≠ '\n')
    (hpre : ∀ l ∈ pre, (∀ x ∈ l, x ≠ '\n') ∧ openLine l = false)
    (hc : isNameStart c = true) (hn : ∀ x ∈ n, isNameChar x = true)
    (hl : labels = [] ∨ ∃ content, labels = '{' :: (content ++ ['}']) ∧
      ∀ x ∈ content, x ≠ '}' ∧ x ≠ '\n')
    (hv : isSampleChar v = false)
    (hbrace : labels ≠ [] → ∀ x ∈ v :: vs, x ≠ '}')
    (hnl : ∀ x ∈ v :: vs, x ≠ '\n')
    (hr : ∀ x ∈ rest.head?, x = '\n') :
    matchAt ('\n' :: (c :: n ++ labels ++ ' ' :: v :: vs ++ rest)) = none ∧
    transformer kv
        (joinLines (l0 :: pre) ++ '\n' :: (c :: n ++ labels ++ ' ' :: v :: vs ++ rest)) =
      transformer kv (joinLines (l0 :: pre)) ++
        '\n' :: (c :: n ++ labels ++ ' ' :: v :: vs) ++ transformer kv rest ∧
    transformer kv (c :: n ++ labels ++ ' ' :: v :: vs ++ rest) =
      c :: n ++ labels ++ ' ' :: v :: vs ++ transformer kv rest := by
  have hline : ∀ x ∈ c :: n ++ labels ++ ' ' :: v :: vs, x ≠ '\n' := by
    intro x hx
    simp only [List.cons_append, List.mem_cons, List.mem_append] at hx
    rcases hx with rfl | (hx | hx) | rfl | hx
    · exact not_nl_of_isNameChar (isNameChar_of_isNameStart hc)
    · exact not_nl_of_isNameChar (hn x hx)
    · rcases hl with rfl | ⟨content, rfl, hcontent⟩
      · simp at hx
      · simp only [List.mem_cons, List.mem_append, List.not_mem_nil, or_false] at hx
        rcases hx with rfl | hx | rfl
        · decide
        · exact (hcontent x hx).2
        · decide
    · decide
    · exact hnl x (by simpa using hx)
  have hopen := openLine_nonNumeric c n labels v vs hn
    (by
      rcases hl with h | ⟨content, h, _⟩
      · exact Or.inl h
      · exact Or.inr ⟨content, h⟩) hbrace
  have hnone := matchAt_nonNumeric c n labels v vs hn hl hv hbrace
  have hloc := matchAt_line_append _ rest hline hopen hr
  rw [hnone] at hloc
  have hself : transformer kv ('\n' :: (c :: n ++ labels ++ ' ' :: v :: vs ++ rest)) =
      '\n' :: (c :: n ++ labels ++ ' ' :: v :: vs) ++ transformer kv rest := by
    rw [transformer_cons_none kv hloc, transformer_lits kv _ rest hline]
    simp
  refine ⟨hloc, ?_, transformer_lits kv _ rest hline⟩
  have hbefore : transformer kv (joinLines (l0 :: pre)) =
      l0 ++ (pre.map (rewriteLine kv)).flatMap (fun x => '\n' :: x) := by
    rw [transformer_lines kv l0 pre h0 hpre, joinLines_cons]
  rw [hbefore, joinLines_cons, List.append_assoc, transformer_lits kv l0 _ h0,
    transformer_lines_then kv pre _ hpre (by simp), hself]
  simp

/-- The line `up{a="b"} NaN` behind the lines `# c` and `up 1` and in front of a
further sample line. -/
theorem non_numeric_value_unchanged_witness :
    ((∀ x ∈ "# c".toList, x ≠ '\n') ∧
      (∀ l ∈ ["up 1".toList], (∀ x ∈ l, x ≠ '\n') ∧ openLine l = false) ∧
      isNameStart 'u' = true ∧ (∀ x ∈ ['p'], isNameChar x = true) ∧
      (("\x7ba=\"b\"\x7d".toList = [] ∨ ∃ content,
        "\x7ba=\"b\"\x7d".toList = '{' :: (content ++ ['}']) ∧
          ∀ x ∈ content, x ≠ '}' ∧ x ≠ '\n')) ∧
      isSampleChar 'N' = false ∧
      ("\x7ba=\"b\"\x7d".toList ≠ [] → ∀ x ∈ 'N' :: ['a', 'N'], x ≠ '}') ∧
      (∀ x ∈ 'N' :: ['a', 'N'], x ≠ '\n') ∧
      (∀ x ∈ ("\nup 1".toList).head?, x = '\n')) ∧
    (transformer fooBar
        (joinLines ("# c".toList :: ["up 1".toList]) ++
          '\n' :: ('u' :: ['p'] ++ "\x7ba=\"b\"\x7d".toList ++ ' ' :: 'N' :: ['a', 'N'] ++
            "\nup 1".toList)) =
      transformer fooBar (joinLines ("# c".toList :: ["up 1".toList])) ++
        '\n' :: ('u' :: ['p'] ++ "\x7ba=\"b\"\x7d".toList ++ ' ' :: 'N' :: ['a', 'N']) ++
        transformer fooBar "\nup 1".toList) ∧
    transformer fooBar "# c\nup 1\nup\x7ba=\"b\"\x7d NaN\nup 1".toList =
      "# c\nup\x7bfoo=\"bar\"\x7d 1\nup\x7ba=\"b\"\x7d NaN\nup\x7bfoo=\"bar\"\x7d 1".toList :=
  ⟨⟨by decide, by decide, by decide, by decide,
      Or.inr ⟨"a=\"b\"".toList, by decide, by decide⟩, by decide,
      fun _ => by decide, by decide, by decide⟩,
    (non_numeric_value_unchanged fooBar "# c".toList ["up 1".toList] 'u' ['p']
      "\x7ba=\"b\"\x7d".toList 'N' ['a', 'N'] "\nup 1".toList (by decide) (by decide)
      (by decide) (by decide)
      (Or.inr ⟨"a=\"b\"".toList, by decide, by decide⟩) (by decide)
      (fun _ => by decide) (by decide) (by decide)).2.1,
    by decide⟩

/-- The lines `up NaN`, `up{a="b"} NaN` and `up Inf`, evaluated. -/
theorem non_numeric_examples :
    transformer fooBar "# c\nup NaN\nup\x7ba=\"b\"\x7d NaN\nup Inf\nup 1".toList =
      "# c\nup NaN\nup\x7ba=\"b\"\x7d NaN\nup Inf\nup\x7bfoo=\"bar\"\x7d 1".toList := by
  decide

end Merger
